import Mathlib

set_option maxRecDepth 8192

deriving instance DecidableEq for Except

/-!
Verification of the `mine` command-runner: configuration codec
(`config.go`), path resolution (`paths.go`) and the command catalog /
dispatcher (`main.go`).  Strings are modelled as lists of Unicode scalar
values (Go runes); Go's byte-level behaviour on invalid UTF-8 is out of
scope.  All definitions are executable.
-/

namespace Mine

/-- A Go string, modelled as its sequence of runes. -/
abbrev Str := List Char

/-- Convert a Lean string literal to the model representation. -/
def str (s : String) : Str := s.data

/-- The double-quote character. -/
def dquote : Char := Char.ofNat 34

/-- The single-quote character. -/
def squote : Char := Char.ofNat 39

/-- The backslash character. -/
def bslash : Char := Char.ofNat 92

/-- The backquote character. -/
def bquote : Char := Char.ofNat 96

/-- Newline. -/
def nl : Char := Char.ofNat 10

/-- Carriage return. -/
def cr : Char := Char.ofNat 13

/-- `unicode.IsSpace`: Unicode white space, fully enumerated. -/
def isSpaceGo (c : Char) : Bool :=
  let n := c.toNat
  (9 ≤ n && n ≤ 13) || n == 32 || n == 0x85 || n == 0xA0 || n == 0x1680 ||
    (0x2000 ≤ n && n ≤ 0x200a) || n == 0x2028 || n == 0x2029 ||
    n == 0x202f || n == 0x205f || n == 0x3000

/-- Left part of `strings.TrimSpace`. -/
def trimLeft (s : Str) : Str := s.dropWhile isSpaceGo

/-- Right part of `strings.TrimSpace`. -/
def trimRight (s : Str) : Str := (s.reverse.dropWhile isSpaceGo).reverse

/-- `strings.TrimSpace`. -/
def trimSpace (s : Str) : Str := trimLeft (trimRight s)

/-- `strings.HasPrefix s p` (argument order: subject first). -/
def hasPre (s p : Str) : Bool := p.isPrefixOf s

/-- `strings.HasSuffix s p`. -/
def hasSuf (s p : Str) : Bool := p.isSuffixOf s

/-- Lexicographic strict order on rune sequences; agrees with Go's
byte-wise `<` on UTF-8 encoded strings. -/
def strLt : Str → Str → Bool
  | [], [] => false
  | [], _ :: _ => true
  | _ :: _, [] => false
  | a :: as, b :: bs => if a = b then strLt as bs else decide (a.toNat < b.toNat)

/-- Insertion step of `sort.Strings` (ascending). -/
def insertStr (x : Str) : List Str → List Str
  | [] => [x]
  | y :: ys => if strLt y x then y :: insertStr x ys else x :: y :: ys

/-- `sort.Strings`: ascending lexicographic sort. -/
def sortStrs : List Str → List Str
  | [] => []
  | x :: xs => insertStr x (sortStrs xs)

/-- Go map read `m[k]`. -/
def mapLookup (k : Str) : List (Str × α) → Option α
  | [] => none
  | (k2, v) :: rest => if k2 = k then some v else mapLookup k rest

/-- Go map write `m[k] = v`: overwrite in place, append if absent. -/
def mapInsert (k : Str) (v : α) : List (Str × α) → List (Str × α)
  | [] => [(k, v)]
  | (k2, v2) :: rest =>
    if k2 = k then (k, v) :: rest else (k2, v2) :: mapInsert k v rest

/-- Keys of a map. -/
def mapKeys (m : List (Str × α)) : List Str := m.map Prod.fst

/-! ### Go `strconv` quoting (quote.go) -/

/-- Model of `unicode.IsPrint` restricted to this development: exact on
ASCII (printable iff `0x20 ≤ c ≤ 0x7e`); runes above ASCII are treated
as printable and rendered literally.  (Go escapes the non-printable ones
as `\u`/`\U`; either rendering unquotes back to the same rune, so every
theorem below is insensitive to the difference.) -/
def isPrintGo (c : Char) : Bool :=
  let n := c.toNat
  if n < 0x80 then decide (0x20 ≤ n) && decide (n ≤ 0x7e) else true

/-- Lower-case hex digit, as Go's `lowerhex` table. -/
def lowerHexDig (n : Nat) : Char :=
  if n < 10 then Char.ofNat (48 + n) else Char.ofNat (87 + n)

/-- One rune of `strconv.Quote` output (double-quote context):
quote/backslash escaped, printable runes literal, the named control
escapes, then `\xHH` for the remaining ASCII controls. -/
def quoteChar (c : Char) : Str :=
  if c = dquote || c = bslash then [bslash, c]
  else if isPrintGo c then [c]
  else if c.toNat = 7 then [bslash, Char.ofNat 97]
  else if c.toNat = 8 then [bslash, Char.ofNat 98]
  else if c.toNat = 12 then [bslash, Char.ofNat 102]
  else if c.toNat = 10 then [bslash, Char.ofNat 110]
  else if c.toNat = 13 then [bslash, Char.ofNat 114]
  else if c.toNat = 9 then [bslash, Char.ofNat 116]
  else if c.toNat = 11 then [bslash, Char.ofNat 118]
  else [bslash, Char.ofNat 120, lowerHexDig (c.toNat / 16), lowerHexDig (c.toNat % 16)]

/-- `strconv.Quote`. -/
def goQuote (s : Str) : Str := dquote :: (s.flatMap quoteChar ++ [dquote])

/-- Value of a hex digit rune, as Go's `unhex`. -/
def hexVal (c : Char) : Option Nat :=
  let n := c.toNat
  if 48 ≤ n ∧ n ≤ 57 then some (n - 48)
  else if 97 ≤ n ∧ n ≤ 102 then some (n - 87)
  else if 65 ≤ n ∧ n ≤ 70 then some (n - 55)
  else none

/-- `utf8.ValidRune`. -/
def validRune (n : Nat) : Bool :=
  decide (n < 0xD800) || (decide (0xE000 ≤ n) && decide (n ≤ 0x10FFFF))

/-- `strconv.UnquoteChar`: decode one (possibly escaped) rune of a
quoted body, returning it with the unconsumed remainder. -/
def unquoteChar (q : Char) : Str → Option (Char × Str)
  | [] => none
  | c :: rest =>
    if c = q then none
    else if c ≠ bslash then some (c, rest)
    else
      match rest with
      | [] => none
      | e :: r2 =>
        if e.toNat = 97 then some (Char.ofNat 7, r2)
        else if e.toNat = 98 then some (Char.ofNat 8, r2)
        else if e.toNat = 102 then some (Char.ofNat 12, r2)
        else if e.toNat = 110 then some (Char.ofNat 10, r2)
        else if e.toNat = 114 then some (Char.ofNat 13, r2)
        else if e.toNat = 116 then some (Char.ofNat 9, r2)
        else if e.toNat = 118 then some (Char.ofNat 11, r2)
        else if e = bslash then some (bslash, r2)
        else if e = squote || e = dquote then
          if e = q then some (e, r2) else none
        else if e.toNat = 120 then
          match r2 with
          | h1 :: h2 :: r3 =>
            match hexVal h1, hexVal h2 with
            | some v1, some v2 => some (Char.ofNat (16 * v1 + v2), r3)
            | _, _ => none
          | _ => none
        else if e.toNat = 117 then
          match r2 with
          | h1 :: h2 :: h3 :: h4 :: r3 =>
            match hexVal h1, hexVal h2, hexVal h3, hexVal h4 with
            | some v1, some v2, some v3, some v4 =>
              let v := ((v1 * 16 + v2) * 16 + v3) * 16 + v4
              if validRune v then some (Char.ofNat v, r3) else none
            | _, _, _, _ => none
          | _ => none
        else if e.toNat = 85 then
          match r2 with
          | h1 :: h2 :: h3 :: h4 :: h5 :: h6 :: h7 :: h8 :: r3 =>
            match hexVal h1, hexVal h2, hexVal h3, hexVal h4,
                  hexVal h5, hexVal h6, hexVal h7, hexVal h8 with
            | some v1, some v2, some v3, some v4,
              some v5, some v6, some v7, some v8 =>
              let v := ((((((v1 * 16 + v2) * 16 + v3) * 16 + v4) * 16 + v5)
                  * 16 + v6) * 16 + v7) * 16 + v8
              if validRune v then some (Char.ofNat v, r3) else none
            | _, _, _, _, _, _, _, _ => none
          | _ => none
        else if 48 ≤ e.toNat ∧ e.toNat ≤ 55 then
          match r2 with
          | o2 :: o3 :: r3 =>
            if 48 ≤ o2.toNat ∧ o2.toNat ≤ 55 ∧ 48 ≤ o3.toNat ∧ o3.toNat ≤ 55 then
              let v := (e.toNat - 48) * 64 + (o2.toNat - 48) * 8 + (o3.toNat - 48)
              if v ≤ 255 then some (Char.ofNat v, r3) else none
            else none
          | _ => none
        else none

/-- The `Unquote` scan loop over a quoted body, with fuel (each step of
`unquoteChar` consumes at least one rune, so fuel = length suffices). -/
def unquoteLoop (q : Char) : Nat → Str → Option Str
  | _, [] => some []
  | 0, _ :: _ => none
  | Nat.succ fuel, s =>
    match unquoteChar q s with
    | none => none
    | some (c, rest) => (unquoteLoop q fuel rest).map (c :: ·)

/-- `strconv.Unquote`: strip matching quotes, reject embedded newlines,
decode escapes; a single-quoted literal holds at most one rune (the
scan loop breaks after one decoded rune and then requires the closing
quote, so the empty literal is accepted and two or more runes are a
syntax error; running the full loop and rejecting two-or-more decoded
runes is equivalent, since a rejected second rune stops both). -/
def goUnquote (s : Str) : Option Str :=
  match s with
  | q :: rest@(_ :: _) =>
    if rest.getLast? ≠ some q then none
    else
      let inner := rest.dropLast
      if q = bquote then
        if inner.contains bquote then none else some (inner.filter (· ≠ cr))
      else if q ≠ dquote ∧ q ≠ squote then none
      else if inner.contains nl then none
      else
        match unquoteLoop q inner.length inner with
        | none => none
        | some out => if q = squote ∧ 2 ≤ out.length then none else some out
  | _ => none

/-! ### The config data model and value codec (config.go) -/

/-- `commandDefinition`. -/
structure commandDefinition where
  path : Str
  description : Str
deriving DecidableEq, Repr

/-- `configData`. -/
structure configData where
  scalars : List (Str × Str)
  commands : List (Str × commandDefinition)
  executors : List (Str × Str)
deriving DecidableEq, Repr

/-- Error cases of `parseTomlValue`. -/
inductive ValueErr where
  | emptyValue
  | badQuote
deriving DecidableEq, Repr

/-- `parseTomlValue`: empty is an error; a value starting with a quote
character is unquoted via `strconv.Unquote`; anything else is literal. -/
def parseTomlValue (input : Str) : Except ValueErr Str :=
  if input = [] then .error .emptyValue
  else if hasPre input [dquote] || hasPre input [squote] then
    match goUnquote input with
    | none => .error .badQuote
    | some v => .ok v
  else .ok input

/-! ### The line decoder (`loadConfig`) -/

/-- The `#` character. -/
def hashC : Char := Char.ofNat 35

/-- The `[` character. -/
def lbrC : Char := Char.ofNat 91

/-- The `]` character. -/
def rbrC : Char := Char.ofNat 93

/-- The `=` character. -/
def eqC : Char := Char.ofNat 61

/-- The `~` character. -/
def tildeC : Char := Char.ofNat 126

/-- The `$` character. -/
def dollarC : Char := Char.ofNat 36

/-- The `/` character. -/
def slashC : Char := Char.ofNat 47

/-- The `.` character. -/
def dotC : Char := Char.ofNat 46

/-- The space character. -/
def spaceC : Char := Char.ofNat 32

/-- `strings.SplitN(line, "=", 2)`: split at the first `=`; `none` when
there is no `=` (the 1-part case, an invalid config line). -/
def splitEq : Str → Option (Str × Str)
  | [] => none
  | c :: rest =>
    if c = eqC then some ([], rest)
    else (splitEq rest).map (fun p => (c :: p.1, p.2))

/-- A rune in the ASCII range. -/
def asciiChar (c : Char) : Bool := decide (c.toNat < 128)

/-- A string of ASCII runes. -/
def asciiStr (s : Str) : Bool := s.all asciiChar

/-- `strings.ToLower`, modelled by the ASCII case mapping.  Go
lowercases the full Unicode range (it maps `Ä` to `ä`, which this model
leaves fixed), and the two agree exactly on ASCII strings; every
theorem that relies on a key being lowercase-fixed therefore also
assumes the key is ASCII (`asciiStr`), so that each covered instance is
one where this model coincides with the code. -/
def toLowerGo (s : Str) : Str := s.map Char.toLower

/-- Decode errors of `loadConfig`, one constructor per message;
`tooLong` is `bufio.ErrTooLong`, surfaced by the `scanner.Err()` check
after the scan loop. -/
inductive LoadErr where
  | invalidSection
  | unknownSection
  | invalidLine
  | invalidKey
  | invalidValue (key : Str) (e : ValueErr)
  | unknownCommandKey (key : Str) (command : Str)
  | tooLong
deriving DecidableEq, Repr

/-- Scanner state of `loadConfig`: the partial model, the open
`[commands.*]` section (empty = none) and the `[executors]` flag. -/
structure LoadState where
  cfg : configData
  currentCommand : Str
  inExecutors : Bool
deriving DecidableEq, Repr

/-- The empty model every scan starts from. -/
def initState : LoadState :=
  { cfg := { scalars := [], commands := [], executors := [] },
    currentCommand := [], inExecutors := false }

/-- The `{{path}}` placeholder token. -/
def placeholder : Str := str "\x7b\x7bpath\x7d\x7d"

/-- `defaultExecutors`. -/
def defaultExecutors : List (Str × Str) :=
  [(str "js", str "node " ++ placeholder),
   (str "py", str "python " ++ placeholder),
   (str "sh", str "sh " ++ placeholder)]

/-- `mergeDefaultExecutors`: defaults fill only missing keys (Go
iterates the base map in arbitrary order; fixed here as js, py, sh —
the resulting map is the same). -/
def mergeDefaultExecutors (existing : List (Str × Str)) : List (Str × Str) :=
  defaultExecutors.foldl
    (fun acc kv => if (mapLookup kv.1 acc).isNone then mapInsert kv.1 kv.2 acc else acc)
    existing

/-- One iteration of the `loadConfig` scan loop. -/
def processLine (st : LoadState) (raw : Str) : Except LoadErr LoadState :=
  let line := trimSpace raw
  if line = [] then
    .ok { st with currentCommand := [], inExecutors := false }
  else if hasPre line [hashC] then .ok st
  else if hasPre line [lbrC] && hasSuf line [rbrC] then
    let sectionName := (line.drop 1).dropLast
    if sectionName = str "executors" then
      .ok { st with currentCommand := [], inExecutors := true }
    else if hasPre sectionName (str "commands.") then
      let name := sectionName.drop 9
      if name = [] then .error .invalidSection
      else
        let cfg := st.cfg
        let cfg :=
          if (mapLookup name cfg.commands).isNone then
            { cfg with commands := mapInsert name ⟨[], []⟩ cfg.commands }
          else cfg
        .ok { st with cfg := cfg, currentCommand := name, inExecutors := false }
    else .error .unknownSection
  else
    match splitEq line with
    | none => .error .invalidLine
    | some (rawKey, rawValue) =>
      let key := trimSpace rawKey
      if key = [] then .error .invalidKey
      else
        let valueText := trimSpace rawValue
        match parseTomlValue valueText with
        | .error e => .error (.invalidValue key e)
        | .ok value =>
          if st.inExecutors then
            .ok { st with cfg := { st.cfg with
              executors := mapInsert (toLowerGo key) value st.cfg.executors } }
          else if st.currentCommand ≠ [] then
            let entry := (mapLookup st.currentCommand st.cfg.commands).getD ⟨[], []⟩
            if key = str "path" then
              let entry2 : commandDefinition := { entry with path := value }
              .ok { st with cfg := { st.cfg with
                commands := mapInsert st.currentCommand entry2 st.cfg.commands } }
            else if key = str "description" then
              let entry2 : commandDefinition := { entry with description := value }
              .ok { st with cfg := { st.cfg with
                commands := mapInsert st.currentCommand entry2 st.cfg.commands } }
            else .error (.unknownCommandKey key st.currentCommand)
          else
            .ok { st with cfg := { st.cfg with
              scalars := mapInsert key value st.cfg.scalars } }

/-- Fold `processLine` over the scanned lines. -/
def loadLinesAux : LoadState → List Str → Except LoadErr LoadState
  | st, [] => .ok st
  | st, l :: ls =>
    match processLine st l with
    | .error e => .error e
    | .ok st2 => loadLinesAux st2 ls

/-- Decode a list of scanned lines into a model (the scan loop of
`loadConfig` followed by the executor-defaults merge). -/
def loadFromLines (lines : List Str) : Except LoadErr configData :=
  match loadLinesAux initState lines with
  | .error e => .error e
  | .ok st => .ok { st.cfg with executors := mergeDefaultExecutors st.cfg.executors }

/-- Raw split of a rune sequence at every newline. -/
def splitNl : Str → List Str
  | [] => [[]]
  | c :: rest =>
    if c = nl then [] :: splitNl rest
    else
      match splitNl rest with
      | [] => [[c]]
      | h :: t => (c :: h) :: t

/-- `bufio.ScanLines` drops one trailing carriage return per token. -/
def stripCR (l : Str) : Str := if l.getLast? = some cr then l.dropLast else l

/-- UTF-8 byte length of one rune (Go strings are bytes; the scanner
limit below is a byte count). -/
def utf8Len (c : Char) : Nat :=
  if c.toNat < 0x80 then 1 else if c.toNat < 0x800 then 2
  else if c.toNat < 0x10000 then 3 else 4

/-- UTF-8 byte length of a string (Go `len`). -/
def byteLen (s : Str) : Nat := s.foldl (fun n c => n + utf8Len c) 0

/-- `bufio.MaxScanTokenSize`, the default scanner's maximum buffer. -/
def maxScanTokenSize : Nat := 65536

/-- A conservative byte budget for one rune of an encoded line: 1 for
ASCII (exact — encoded lines render ASCII runes as themselves) and 10
for anything else, an upper bound on both the rune's literal UTF-8 form
(at most 4 bytes) and the longest escape `strconv.Quote` may choose for
it instead (`\UHHHHHHHH`, 10 bytes).  A model line within this budget
is therefore within the real scanner's limit however Go renders it. -/
def scanBudget (c : Char) : Nat := if c.toNat < 0x80 then 1 else 10

/-- The conservative byte budget of a whole line. -/
def scanBudgetLen (s : Str) : Nat := s.foldl (fun n c => n + scanBudget c) 0

/-- Whether one raw line (content before its newline, a trailing `\r`
included) fits the default `bufio.Scanner`: the buffer grows to at most
`maxScanTokenSize` bytes and must hold the content together with its
newline before a token can be produced, so content of 64 KiB or more
raises `bufio.ErrTooLong` (also for an unterminated final line, where
the full buffer is detected before the read that would report EOF). -/
def lineFits (l : Str) : Bool := decide (byteLen l < maxScanTokenSize)

/-- The scanner's token stream: tokens for the raw lines before the
first over-long one; the flag is `false` exactly when the scan stopped
early with `bufio.ErrTooLong`. -/
def scanTokens : List Str → List Str × Bool
  | [] => ([], true)
  | l :: rest =>
    if lineFits l then
      let p := scanTokens rest
      (stripCR l :: p.1, p.2)
    else ([], false)

/-- The token sequence `bufio.Scanner` (with `ScanLines`) yields: split
at newlines, no empty token after a final newline, drop a trailing `\r`
per token, stop with `ErrTooLong` (flag `false`) at the first line over
the buffer limit. -/
def scanLines (s : Str) : List Str × Bool :=
  if s = [] then ([], true)
  else
    let ls := splitNl s
    let ls := if ls.getLast? = some [] then ls.dropLast else ls
    scanTokens ls

/-- `loadConfig` on file contents (the I/O-free core: scan + decode).
Tokens produced before a scanner failure are decoded first — a decode
error among them returns immediately from the loop — and only then is
`scanner.Err()` checked, surfacing `ErrTooLong`. -/
def loadConfig (text : Str) : Except LoadErr configData :=
  let p := scanLines text
  match loadLinesAux initState p.1 with
  | .error e => .error e
  | .ok st =>
    if p.2 then .ok { st.cfg with executors := mergeDefaultExecutors st.cfg.executors }
    else .error .tooLong

/-! ### The encoder (`encodeConfig`) -/

/-- One `key = "quoted"` line, as `fmt.Sprintf("%s = %s", k, strconv.Quote(v))`. -/
def kvLine (k v : Str) : Str := k ++ str " = " ++ goQuote v

/-- The scalar section: keys sorted, each rendered quoted. -/
def encodeScalarLines (sc : List (Str × Str)) : List Str :=
  (sortStrs (mapKeys sc)).map (fun k => kvLine k ((mapLookup k sc).getD []))

/-- The `[executors]` section: header then sorted quoted entries. -/
def encodeExecLines (ex : List (Str × Str)) : List Str :=
  str "[executors]" ::
    (sortStrs (mapKeys ex)).map (fun k => kvLine k ((mapLookup k ex).getD []))

/-- One `[commands.<name>]` block: header, path line, description line. -/
def cmdBlock (name : Str) (d : commandDefinition) : List Str :=
  [str "[commands." ++ name ++ [rbrC],
   kvLine (str "path") d.path,
   kvLine (str "description") d.description]

/-- Blocks separated by one blank line, none after the last. -/
def joinBlocks : List (List Str) → List Str
  | [] => []
  | [b] => b
  | b :: bs => b ++ [[]] ++ joinBlocks bs

/-- The commands section: aliases sorted, blocks blank-line separated. -/
def encodeCmdLines (cm : List (Str × commandDefinition)) : List Str :=
  joinBlocks ((sortStrs (mapKeys cm)).map
    (fun n => cmdBlock n ((mapLookup n cm).getD ⟨[], []⟩)))

/-- `encodeConfig` as its sequence of output lines (the builder emits
each line followed by one newline; separators are blank lines, emitted
only when the builder is non-empty). -/
def encodeLines (cfg : configData) : List Str :=
  let s := encodeScalarLines cfg.scalars
  let e :=
    if cfg.executors = [] then []
    else (if s = [] then [] else [[]]) ++ encodeExecLines cfg.executors
  let before := s ++ e
  let c :=
    if cfg.commands = [] then []
    else (if before = [] then [] else [[]]) ++ encodeCmdLines cfg.commands
  before ++ c

/-- Concatenate lines, each terminated by a newline, as the builder does. -/
def joinLines (ls : List Str) : Str := ls.flatMap (fun l => l ++ [nl])

/-- `encodeConfig`. -/
def encodeConfig (cfg : configData) : Str := joinLines (encodeLines cfg)

/-! ### Path resolution (paths.go, `os.Expand`, `path/filepath` on unix) -/

/-- The `{` character. -/
def lcurl : Char := Char.ofNat 123

/-- The `}` character. -/
def rcurl : Char := Char.ofNat 125

/-- `os.Expand`'s `isShellSpecialVar`. -/
def isShellSpecialVar (c : Char) : Bool :=
  let n := c.toNat
  n == 42 || n == 35 || n == 36 || n == 64 || n == 33 || n == 63 || n == 45 ||
    (48 ≤ n && n ≤ 57)

/-- `os.Expand`'s `isAlphaNum`. -/
def isAlphaNumGo (c : Char) : Bool :=
  let n := c.toNat
  n == 95 || (48 ≤ n && n ≤ 57) || (97 ≤ n && n ≤ 122) || (65 ≤ n && n ≤ 90)

/-- Scan for the closing brace of a `${name}` reference. -/
def braceSearch (rest : Str) : Str × Nat :=
  match rest.findIdx? (· = rcurl) with
  | none => ([], 1)
  | some 0 => ([], 2)
  | some i => (rest.take i, i + 2)

/-- `os.Expand`'s `getShellName`: the variable name following a `$` and
the number of runes it occupies. -/
def getShellName (s : Str) : Str × Nat :=
  match s with
  | [] => ([], 0)
  | c :: rest =>
    if c = lcurl then
      match rest with
      | c1 :: c2 :: _ =>
        if isShellSpecialVar c1 ∧ c2 = rcurl then ([c1], 3) else braceSearch rest
      | _ => braceSearch rest
    else if isShellSpecialVar c then ([c], 1)
    else
      let name := s.takeWhile isAlphaNumGo
      (name, name.length)

/-- `os.Expand`, structured on a fuel of at least the input length (each
step consumes at least one rune, so the fuel is never exhausted). -/
def osExpandGo (mapping : Str → Str) : Nat → Str → Str
  | _, [] => []
  | 0, s => s
  | fuel + 1, c :: rest =>
    if c = dollarC ∧ rest ≠ [] then
      let p := getShellName rest
      if p.1 = [] ∧ p.2 ≠ 0 then osExpandGo mapping fuel (rest.drop p.2)
      else if p.1 = [] then dollarC :: osExpandGo mapping fuel rest
      else mapping p.1 ++ osExpandGo mapping fuel (rest.drop p.2)
    else c :: osExpandGo mapping fuel rest

/-- `os.Expand`. -/
def osExpand (mapping : Str → Str) (s : Str) : Str := osExpandGo mapping s.length s

/-- The process environment an invocation sees: `os.LookupEnv`, the
result of `os.UserHomeDir` (`none` = error) and the working directory
`filepath.Abs` resolves against. -/
structure GoEnv where
  lookupEnvFn : Str → Option Str
  userHomeDir : Option Str
  cwd : Str

/-- `os.Getenv` (empty for unset). -/
def getenv (env : GoEnv) (name : Str) : Str := (env.lookupEnvFn name).getD []

/-- `os.ExpandEnv`. -/
def osExpandEnv (env : GoEnv) (s : Str) : Str := osExpand (getenv env) s

/-- `currentHomeDir`: `$HOME` if set non-empty, else `os.UserHomeDir`,
else the empty string. -/
def currentHomeDir (env : GoEnv) : Str :=
  match env.lookupEnvFn (str "HOME") with
  | some v => if v ≠ [] then v else (env.userHomeDir).getD []
  | none => (env.userHomeDir).getD []

/-- `filepath.IsAbs` (unix). -/
def isAbsGo (p : Str) : Bool := hasPre p [slashC]

/-- Raw split of a path at every `/`. -/
def splitSlash : Str → List Str
  | [] => [[]]
  | c :: rest =>
    if c = slashC then [] :: splitSlash rest
    else
      match splitSlash rest with
      | [] => [[c]]
      | h :: t => (c :: h) :: t

/-- One step of the `filepath.Clean` component stack. -/
def cleanStep (rooted : Bool) (acc : List Str) (comp : Str) : List Str :=
  if comp = [] ∨ comp = str "." then acc
  else if comp = str ".." then
    if acc ≠ [] ∧ acc.getLast? ≠ some (str "..") then acc.dropLast
    else if rooted then acc
    else acc ++ [str ".."]
  else acc ++ [comp]

/-- Join components with `/`. -/
def joinComps : List Str → Str
  | [] => []
  | [x] => x
  | x :: xs => x ++ slashC :: joinComps xs

/-- `filepath.Clean` (unix), as the standard component-stack algorithm
equivalent to Go's in-place scan. -/
def filepathClean (p : Str) : Str :=
  if p = [] then str "."
  else
    let rooted := hasPre p [slashC]
    let stack := (splitSlash p).foldl (cleanStep rooted) []
    let out := (if rooted then [slashC] else []) ++ joinComps stack
    if out = [] then str "." else out

/-- `filepath.Join` for two elements: skip leading empties, join with
`/`, `Clean`. -/
def filepathJoin (a b : Str) : Str :=
  if a = [] ∧ b = [] then []
  else if a = [] then filepathClean b
  else filepathClean (a ++ slashC :: b)

/-- `filepath.Abs`: `Clean` if already absolute, else join under the
working directory. -/
def filepathAbs (cwd p : Str) : Str :=
  if isAbsGo p then filepathClean p else filepathJoin cwd p

/-- `filepath.Ext`: suffix from the last dot of the last component. -/
def filepathExt (p : Str) : Str :=
  let pre := p.reverse.takeWhile (fun c => c ≠ slashC)
  let upto := pre.takeWhile (fun c => c ≠ dotC)
  if upto.length = pre.length then [] else dotC :: upto.reverse

/-- Failure cases of PathResolver. -/
inductive PathErr where
  | emptyPath
  | homeUnset
deriving DecidableEq, Repr

/-- `expandHomeShortcut`: a path starting with `~` requires a home
directory; then `~` alone or `~/rest` is expanded, anything else is
returned untouched. -/
def expandHomeShortcut (env : GoEnv) (path : Str) : Except PathErr Str :=
  if path = [] then .ok path
  else if ¬ hasPre path [tildeC] then .ok path
  else
    let home := currentHomeDir env
    if home = [] then .error .homeUnset
    else if path = [tildeC] then .ok home
    else if hasPre path (str "~/") then .ok (filepathJoin home (path.drop 2))
    else .ok path

/-- `resolveUserPath`: reject empty, expand env vars, expand the home
shortcut, make absolute. -/
def resolveUserPath (env : GoEnv) (input : Str) : Except PathErr Str :=
  if input = [] then .error .emptyPath
  else
    match expandHomeShortcut env (osExpandEnv env input) with
    | .error e => .error e
    | .ok expanded => .ok (filepathAbs env.cwd expanded)

/-- `collapseHomePath`: render a path under the home directory as a
`$HOME` shorthand, otherwise return it unchanged. -/
def collapseHomePath (env : GoEnv) (path : Str) : Str :=
  if path = [] then path
  else
    let home := currentHomeDir env
    if home = [] then path
    else
      let cleanHome := filepathClean home
      let cleanPath := filepathClean path
      if cleanPath = cleanHome then str "$HOME"
      else
        let pre := cleanHome ++ [slashC]
        if hasPre cleanPath pre then
          let relative := cleanPath.drop pre.length
          if relative = [] then str "$HOME" else filepathJoin (str "$HOME") relative
        else path

/-- `resolveConfigPath`, given the per-user application config directory
(the result of `userConfigDir`). -/
def resolveConfigPath (appConfigDir : Str) (name : Str) : Str :=
  let target := if name = [] then str "config.toml" else name
  if isAbsGo target then
    if filepathExt target = [] then target ++ str ".toml" else target
  else if target.contains slashC || target.contains bslash then
    let t := if filepathExt target = [] then target ++ str ".toml" else target
    filepathJoin appConfigDir t
  else
    let t := if filepathExt target = [] then target ++ str ".toml" else target
    filepathJoin appConfigDir t

/-! ### Catalog and dispatcher (main.go) -/

/-- `isSimpleCommandName`: non-empty, not absolute, no `~`/`$` lead, no
path separator. -/
def isSimpleCommandName (value : Str) : Bool :=
  if value = [] then false
  else if isAbsGo value then false
  else if hasPre value [tildeC] || hasPre value [dollarC] then false
  else ¬ value.contains slashC

/-- `strings.ReplaceAll` for a non-empty pattern (left-to-right,
non-overlapping; the empty-pattern rune-interleaving case never arises
here). -/
def replaceAllGo (pat rep : Str) : Nat → Str → Str
  | _, [] => []
  | 0, s => s
  | fuel + 1, c :: rest =>
    if pat ≠ [] ∧ pat.isPrefixOf (c :: rest) then
      rep ++ replaceAllGo pat rep fuel (rest.drop (pat.length - 1))
    else c :: replaceAllGo pat rep fuel rest

def replaceAll (s pat rep : Str) : Str := replaceAllGo pat rep s.length s

/-- `strings.Contains`. -/
def containsSub (s sub : Str) : Bool := s.tails.any (fun t => sub.isPrefixOf t)

/-- `shellQuote`: wrap in single quotes, escaping each embedded single
quote as the four-rune sequence quote backslash quote quote. -/
def shellQuote (path : Str) : Str :=
  if path = [] then [squote, squote]
  else squote :: replaceAll path [squote] [squote, bslash, squote, squote] ++ [squote]

/-- What `os.Stat` reports for a path. -/
inductive StatRes where
  | notExist
  | errOther
  | file
  | dir
deriving DecidableEq, Repr

/-- The filesystem an invocation sees. -/
structure GoFS where
  stat : Str → StatRes
  mkdirAllOk : Str → Bool
  writeOk : Bool

/-- Failure cases of `Execute`. -/
inductive ExecErr where
  | notFound
  | noPath
  | resolveFailed
  | fileNotExist
  | statFailed
  | isDirectory
  | noExtension
  | noExecutor (ext : Str)
  | mustIncludePath (ext : Str)
deriving DecidableEq, Repr

/-- `buildExecutorCommand`: reject a template lacking the placeholder,
otherwise substitute every occurrence with the shell-quoted path. -/
def buildExecutorCommand (template scriptPath ext : Str) : Except ExecErr Str :=
  if ¬ containsSub template placeholder then .error (.mustIncludePath ext)
  else .ok (replaceAll template placeholder (shellQuote scriptPath))

/-- `handleExecCommand` up to the point a subprocess would be spawned:
the returned string is the command line handed to the shell; every
`.error` outcome spawns nothing. -/
def handleExecCommand (env : GoEnv) (fs : GoFS) (name : Str) (cfg : configData) :
    Except ExecErr Str :=
  match mapLookup name cfg.commands with
  | none => .error .notFound
  | some entry =>
    if entry.path = [] then .error .noPath
    else
      match resolveUserPath env entry.path with
      | .error _ => .error .resolveFailed
      | .ok resolvedPath =>
        match fs.stat resolvedPath with
        | .notExist => .error .fileNotExist
        | .errOther => .error .statFailed
        | .dir => .error .isDirectory
        | .file =>
          let e0 := toLowerGo (filepathExt resolvedPath)
          let ext := if hasPre e0 [dotC] then e0.drop 1 else e0
          if ext = [] then .error .noExtension
          else
            match mapLookup ext cfg.executors with
            | none => .error (.noExecutor ext)
            | some tmpl => buildExecutorCommand tmpl resolvedPath ext

/-- Failure cases of `AddCommand`. -/
inductive AddErr where
  | notConfigured
  | resolveCommandsFolder
  | mkdirFailed
  | resolvePath
  | fileNotExist
  | statFailed
  | isDirectory
  | alreadyExists
  | writeFailed
deriving DecidableEq, Repr

/-- `handleAddCommand`: on success, the updated model together with the
file text written; every `.error` outcome leaves catalog and file
untouched (the source mutates and writes only past all checks). -/
def handleAddCommand (env : GoEnv) (fs : GoFS)
    (fileName commandName description : Str) (cfg : configData) :
    Except AddErr (configData × Str) :=
  match mapLookup (str "commands_folder") cfg.scalars with
  | none => .error .notConfigured
  | some raw =>
    if raw = [] then .error .notConfigured
    else
      match resolveUserPath env raw with
      | .error _ => .error .resolveCommandsFolder
      | .ok commandsDir =>
        if ¬ fs.mkdirAllOk commandsDir then .error .mkdirFailed
        else
          let cand : Except PathErr Str :=
            if isSimpleCommandName fileName then .ok (filepathJoin commandsDir fileName)
            else resolveUserPath env fileName
          match cand with
          | .error _ => .error .resolvePath
          | .ok commandPath =>
            match fs.stat commandPath with
            | .notExist => .error .fileNotExist
            | .errOther => .error .statFailed
            | .dir => .error .isDirectory
            | .file =>
              if (mapLookup commandName cfg.commands).isSome then .error .alreadyExists
              else
                let cfg2 := { cfg with
                  commands := mapInsert commandName
                    ⟨collapseHomePath env commandPath, description⟩ cfg.commands }
                if fs.writeOk then .ok (cfg2, encodeConfig cfg2)
                else .error .writeFailed

/-! ### A model of POSIX shell word parsing (the external `sh` the
dispatcher hands its command line to), used to state quoting safety:
parsing succeeds only if no unquoted metacharacter or whitespace is
met, so a successful parse means no word splitting and no injection;
inside single quotes every rune is literal. -/

/-- Shell metacharacters and whitespace that would split or reinterpret
an unquoted word. -/
def isShellMeta (c : Char) : Bool :=
  isSpaceGo c || c = dquote || c = bquote || c = dollarC ||
    c.toNat == 124 || c.toNat == 38 || c.toNat == 59 || c.toNat == 60 ||
    c.toNat == 62 || c.toNat == 40 || c.toNat == 41 || c.toNat == 42 ||
    c.toNat == 63 || c.toNat == 91 || c.toNat == 35 || c.toNat == 126

/-- The three states of the shell word parser: unquoted, inside single
quotes, and immediately after an unquoted backslash. -/
inductive SWMode where
  | plain
  | quoted
  | escaped

/-- Parse a string as one shell word; inside single quotes every rune is
literal until the closing quote, a backslash escapes the next rune, and
an unquoted metacharacter or whitespace fails the parse. -/
def shellWordAux : SWMode → Str → Option Str
  | .plain, [] => some []
  | .quoted, [] => none
  | .escaped, [] => none
  | .plain, c :: rest =>
    if c = squote then shellWordAux .quoted rest
    else if c = bslash then shellWordAux .escaped rest
    else if isShellMeta c then none
    else (shellWordAux .plain rest).map (c :: ·)
  | .quoted, c :: rest =>
    if c = squote then shellWordAux .plain rest
    else (shellWordAux .quoted rest).map (c :: ·)
  | .escaped, c :: rest => (shellWordAux .plain rest).map (c :: ·)

/-- Parse an entire string as one shell word, unquoted context. -/
def shellWord (s : Str) : Option Str := shellWordAux .plain s

/-- Parse the remainder of a single-quoted segment. -/
def shellWordQ (s : Str) : Option Str := shellWordAux .quoted s

/-- A scalar or executor key that survives the encode/decode cycle
unchanged: non-empty, trimming-invariant, no `=`, no newline, not a
comment starter.  Keys produced by `loadConfig` always satisfy this;
`-config <key> <value>` can inject keys outside this set. -/
def WellKey (k : Str) : Prop :=
  k ≠ [] ∧ trimSpace k = k ∧ eqC ∉ k ∧ nl ∉ k ∧ k.head? ≠ some hashC

instance (k : Str) : Decidable (WellKey k) := by
  unfold WellKey
  infer_instance

/-- Whether a raw line is recognised as the `[executors]` section
header (mirrors the header branch of `processLine`). -/
def isExecHeader (raw : Str) : Bool :=
  let line := trimSpace raw
  hasPre line [lbrC] && hasSuf line [rbrC] &&
    ((line.drop 1).dropLast == str "executors")

/-! ## Theorems -/

/-- C2, counterexample to the claim as stated: the well-formed
single-quoted value text `'hello world'` does not decode to its
contents; `strconv.Unquote` treats a single-quoted literal as a rune
literal, so it reports an unquote error that `parseTomlValue` wraps as
an invalid-value error. -/
theorem C2_counterexample :
    parseTomlValue ([squote] ++ str "hello world" ++ [squote]) = .error .badQuote ∧
    parseTomlValue ([squote] ++ str "hello world" ++ [squote]) ≠ .ok (str "hello world") := by
  constructor
  · decide
  · decide

/-- C2 (amended): a trimmed value text starting with a quote character
is handed to the unquoter and the result (or an invalid-value error
wrapping the unquote failure) is returned; an empty unquoted value is a
decode error; any other text is the literal value.  A single-quoted
text is a rune literal holding at most one rune: the empty literal
decodes to the empty string, one-rune literals decode to their
contents, and longer ones (such as a two-rune one) are errors. -/
theorem C2_value_decoding :
    (parseTomlValue [] = .error .emptyValue) ∧
    (∀ s : Str, s ≠ [] → s.head? ≠ some dquote → s.head? ≠ some squote →
      parseTomlValue s = .ok s) ∧
    (∀ s : Str, (hasPre s [dquote] || hasPre s [squote]) = true →
      parseTomlValue s =
        match goUnquote s with
        | none => .error .badQuote
        | some v => .ok v) ∧
    (∀ c : Char, c ≠ squote → c ≠ bslash → c ≠ nl →
      parseTomlValue [squote, c, squote] = .ok [c]) ∧
    (parseTomlValue ([squote] ++ str "ab" ++ [squote]) = .error .badQuote) ∧
    (parseTomlValue [squote, squote] = .ok []) := by
  refine ⟨by decide, ?_, ?_, ?_, by decide, by decide⟩
  · intro s hne h1 h2
    cases s with
    | nil => exact absurd rfl hne
    | cons c t =>
      have hc1 : c ≠ dquote := by intro h; exact h1 (by simp [h])
      have hc2 : c ≠ squote := by intro h; exact h2 (by simp [h])
      have hp : (hasPre (c :: t) [dquote] || hasPre (c :: t) [squote]) = false := by
        simp only [hasPre, List.isPrefixOf, Bool.or_eq_false_iff, Bool.and_eq_false_iff]
        constructor
        · left
          simp only [beq_eq_false_iff_ne, ne_eq]
          exact fun h => hc1 h.symm
        · left
          simp only [beq_eq_false_iff_ne, ne_eq]
          exact fun h => hc2 h.symm
      simp only [parseTomlValue, hp]
      rw [if_neg (by simp), if_neg (by simp)]
  · intro s hq
    have hne : s ≠ [] := by
      intro h
      subst h
      simp [hasPre, List.isPrefixOf] at hq
    simp [parseTomlValue, hne, hq]
  · intro c h1 h2 h3
    have hq : (hasPre [squote, c, squote] [dquote] || hasPre [squote, c, squote] [squote]) = true := by
      simp [hasPre, List.isPrefixOf]
    simp only [parseTomlValue]
    rw [if_neg (by simp), if_pos hq]
    have hun : goUnquote [squote, c, squote] = some [c] := by
      simp only [goUnquote, List.getLast?, List.dropLast]
      rw [if_neg (by simp)]
      rw [if_neg (by decide)]
      rw [if_neg (by decide)]
      have hcont : ([c] : Str).contains nl = false := by
        have hb : (nl == c) = false := beq_eq_false_iff_ne.mpr (fun h => h3 h.symm)
        simp [List.contains, List.elem, hb]
      rw [if_neg (by
        simp [hcont]
        exact fun h => h3 h.symm)]
      have hloop : unquoteLoop squote [c].length [c] = some [c] := by
        have hch : unquoteChar squote [c] = some (c, []) := by
          simp only [unquoteChar]
          rw [if_neg h1, if_pos h2]
        show unquoteLoop squote 1 [c] = some [c]
        simp [unquoteLoop, hch]
      rw [hloop]
      simp
    rw [hun]
/-! ### Shared lemmas: trimming, splitting, sorting, maps -/

theorem trimLeft_cons (c : Char) (t : Str) (h : isSpaceGo c = false) :
    trimLeft (c :: t) = c :: t := by
  simp [trimLeft, List.dropWhile, h]

theorem trimRight_concat (l : Str) (c : Char) (h : isSpaceGo c = false) :
    trimRight (l ++ [c]) = l ++ [c] := by
  simp [trimRight, List.dropWhile, h]

theorem head_not_space_of_trimLeft (c : Char) (t : Str)
    (h : trimLeft (c :: t) = c :: t) : isSpaceGo c = false := by
  cases hp : isSpaceGo c
  · rfl
  · exfalso
    rw [trimLeft, List.dropWhile, hp] at h
    have hlen := congrArg List.length h
    have hle : (t.dropWhile isSpaceGo).length ≤ t.length :=
      (List.dropWhile_suffix isSpaceGo).sublist.length_le
    simp at hlen
    omega

theorem trim_parts (s : Str) (h : trimSpace s = s) :
    trimLeft s = s ∧ trimRight s = s := by
  have hR : (s.reverse.dropWhile isSpaceGo).length ≤ s.reverse.length :=
    (List.dropWhile_suffix isSpaceGo).sublist.length_le
  have hL : (trimLeft (trimRight s)).length ≤ (trimRight s).length :=
    (List.dropWhile_suffix isSpaceGo).sublist.length_le
  have hlen : (trimLeft (trimRight s)).length = s.length := by rw [← trimSpace]; rw [h]
  have hRlen : (trimRight s).length = s.length := by
    have : (trimRight s).length ≤ s.length := by
      simpa [trimRight] using hR
    omega
  have hdropR : s.reverse.dropWhile isSpaceGo = s.reverse := by
    apply (List.dropWhile_suffix isSpaceGo).sublist.eq_of_length
    have := congrArg List.length (rfl : trimRight s = trimRight s)
    simp [trimRight] at hRlen
    simpa using hRlen
  have hTR : trimRight s = s := by
    simp [trimRight, hdropR]
  refine ⟨?_, hTR⟩
  rw [trimSpace, hTR] at h
  exact h

theorem trimSpace_cons_concat (c : Char) (mid : Str) (d : Char)
    (hc : isSpaceGo c = false) (hd : isSpaceGo d = false) :
    trimSpace (c :: (mid ++ [d])) = c :: (mid ++ [d]) := by
  rw [trimSpace]
  have h1 : trimRight (c :: (mid ++ [d])) = c :: (mid ++ [d]) := by
    have := trimRight_concat (c :: mid) d hd
    simpa using this
  rw [h1]
  exact trimLeft_cons _ _ hc

theorem splitEq_append (k rest : Str) (h : eqC ∉ k) :
    splitEq (k ++ eqC :: rest) = some (k, rest) := by
  induction k with
  | nil => simp [splitEq]
  | cons c t ih =>
    have hc : ¬(c = eqC) := fun e => h (by simp [e])
    have ht : eqC ∉ t := fun m => h (List.mem_cons_of_mem _ m)
    simp [splitEq, hc, ih ht]

theorem strLt_asymm (a b : Str) (h : strLt a b = true) : strLt b a = false := by
  induction a generalizing b with
  | nil =>
    cases b with
    | nil => simp [strLt] at h
    | cons d u => simp [strLt]
  | cons c t ih =>
    cases b with
    | nil => simp [strLt] at h
    | cons d u =>
      by_cases hcd : c = d
      · subst hcd
        rw [strLt, if_pos rfl] at h ⊢
        exact ih u h
      · rw [strLt, if_neg hcd] at h
        rw [strLt, if_neg (Ne.symm hcd)]
        simp at h ⊢
        omega

theorem insertStr_front (x : Str) (xs : List Str)
    (h : ∀ y ∈ xs, strLt x y = true) : insertStr x xs = x :: xs := by
  cases xs with
  | nil => rfl
  | cons y ys =>
    have := strLt_asymm x y (h y (by simp))
    simp [insertStr, this]

theorem sortStrs_sorted_id (l : List Str)
    (h : l.Pairwise (fun a b => strLt a b = true)) : sortStrs l = l := by
  induction l with
  | nil => rfl
  | cons x xs ih =>
    rw [sortStrs, ih (List.Pairwise.sublist (List.sublist_cons_self x xs) h)]
    exact insertStr_front x xs (List.pairwise_cons.mp h).1

theorem mapLookup_insert_self (k : Str) (v : α) (m : List (Str × α)) :
    mapLookup k (mapInsert k v m) = some v := by
  induction m with
  | nil => simp [mapInsert, mapLookup]
  | cons kv rest ih =>
    by_cases hk : kv.1 = k
    · simp [mapInsert, hk, mapLookup]
    · simp [mapInsert, hk, mapLookup, ih]

theorem mapLookup_insert_other (k k2 : Str) (v : α) (m : List (Str × α))
    (h : k2 ≠ k) : mapLookup k2 (mapInsert k v m) = mapLookup k2 m := by
  induction m with
  | nil => simp [mapInsert, mapLookup, Ne.symm h]
  | cons kv rest ih =>
    by_cases hk : kv.1 = k
    · rw [mapInsert, if_pos hk, mapLookup, if_neg (fun e => h e.symm), mapLookup,
        if_neg (by rw [hk]; exact fun e => h e.symm)]
    · rw [mapInsert, if_neg hk, mapLookup, mapLookup]
      by_cases hk2 : kv.1 = k2
      · rw [if_pos hk2, if_pos hk2]
      · rw [if_neg hk2, if_neg hk2]
        exact ih

theorem mapInsert_absent (k : Str) (v : α) (m : List (Str × α))
    (h : mapLookup k m = none) : mapInsert k v m = m ++ [(k, v)] := by
  induction m with
  | nil => simp [mapInsert]
  | cons kv rest ih =>
    by_cases hk : kv.1 = k
    · rw [mapLookup, if_pos hk] at h
      cases h
    · rw [mapLookup, if_neg hk] at h
      simp [mapInsert, hk, ih h]

theorem mapInsert_insert_same (k : Str) (v w : α) (m : List (Str × α)) :
    mapInsert k w (mapInsert k v m) = mapInsert k w m := by
  induction m with
  | nil => simp [mapInsert]
  | cons kv rest ih =>
    by_cases hk : kv.1 = k
    · simp [mapInsert, hk]
    · simp [mapInsert, hk, ih]

theorem mapLookup_append (k : Str) (p q : List (Str × α)) :
    mapLookup k (p ++ q) =
      match mapLookup k p with
      | some v => some v
      | none => mapLookup k q := by
  induction p with
  | nil => simp [mapLookup]
  | cons kv rest ih =>
    by_cases hk : kv.1 = k
    · simp [mapLookup, hk]
    · simp [mapLookup, hk, ih]

theorem foldl_mapInsert_fresh (S P : List (Str × α))
    (hfresh : ∀ kv ∈ S, mapLookup kv.1 P = none)
    (hnodup : (S.map Prod.fst).Nodup) :
    S.foldl (fun m kv => mapInsert kv.1 kv.2 m) P = P ++ S := by
  induction S generalizing P with
  | nil => simp
  | cons kv S2 ih =>
    rw [List.foldl_cons, mapInsert_absent _ _ _ (hfresh kv (by simp))]
    rw [ih (P ++ [kv])]
    · simp
    · intro kv2 h2
      rw [mapLookup_append]
      rw [hfresh kv2 (by simp [h2])]
      have hne : kv2.1 ≠ kv.1 := by
        have := (List.pairwise_cons.mp hnodup).1
        intro e
        exact this kv2.1 (List.mem_map_of_mem _ h2) e.symm
      simp [mapLookup, hne]
      exact fun e => hne e.symm
    · exact (List.pairwise_cons.mp hnodup).2

theorem loadLinesAux_append (st : LoadState) (a b : List Str) :
    loadLinesAux st (a ++ b) =
      match loadLinesAux st a with
      | .error e => .error e
      | .ok st2 => loadLinesAux st2 b := by
  induction a generalizing st with
  | nil => simp [loadLinesAux]
  | cons l ls ih =>
    rw [List.cons_append, loadLinesAux, loadLinesAux]
    cases processLine st l with
    | error e => rfl
    | ok st2 => exact ih st2

/-! ### Quote/unquote round trip -/

theorem toNat_ofNat_small (k : Nat) (h : k < 55296) : (Char.ofNat k).toNat = k := by
  unfold Char.ofNat
  rw [dif_pos (Or.inl h)]
  simp [Char.ofNatAux, Char.toNat, UInt32.toNat, BitVec.toNat_ofNatLt]

theorem ofNat_inj_small (a b : Nat) (ha : a < 55296) (hb : b < 55296)
    (h : Char.ofNat a = Char.ofNat b) : a = b := by
  have h2 := congrArg Char.toNat h
  rwa [toNat_ofNat_small a ha, toNat_ofNat_small b hb] at h2

theorem hexVal_lowerHexDig (n : Nat) (h : n < 16) : hexVal (lowerHexDig n) = some n := by
  interval_cases n <;> decide

theorem quoteChar_length_pos (c : Char) : 0 < (quoteChar c).length := by
  rw [quoteChar]
  repeat' split
  all_goals simp

theorem not_print_bounds (c : Char) (h : ¬ isPrintGo c = true) :
    c.toNat < 0x80 ∧ (c.toNat < 0x20 ∨ 0x7e < c.toNat) := by
  simp only [isPrintGo] at h
  by_cases hlt : c.toNat < 0x80
  · rw [if_pos hlt] at h
    simp only [Bool.and_eq_true, decide_eq_true_eq, not_and_or] at h
    refine ⟨hlt, ?_⟩
    rcases h with h | h
    · left; omega
    · right; omega
  · rw [if_neg hlt] at h
    simp at h

theorem lowerHexDig_ne_nl (m : Nat) (h : m < 16) : lowerHexDig m ≠ nl := by
  unfold lowerHexDig nl
  intro he
  by_cases h10 : m < 10
  · rw [if_pos h10] at he
    have := ofNat_inj_small _ _ (by omega) (by omega) he
    omega
  · rw [if_neg h10] at he
    have := ofNat_inj_small _ _ (by omega) (by omega) he
    omega

theorem quoteChar_no_nl (c : Char) : nl ∉ quoteChar c := by
  rw [quoteChar]
  by_cases h1 : c = dquote ∨ c = bslash
  · rw [if_pos (by simpa using h1)]
    rcases h1 with h | h <;> subst h <;> decide
  · rw [if_neg (by simpa using h1)]
    by_cases h2 : isPrintGo c = true
    · rw [if_pos h2]
      intro hm
      simp at hm
      rw [← hm] at h2
      exact absurd h2 (by decide)
    · rw [if_neg h2]
      have hb := not_print_bounds c h2
      by_cases h7 : c.toNat = 7
      · rw [if_pos h7]; decide
      · rw [if_neg h7]
        by_cases h8 : c.toNat = 8
        · rw [if_pos h8]; decide
        · rw [if_neg h8]
          by_cases h12 : c.toNat = 12
          · rw [if_pos h12]; decide
          · rw [if_neg h12]
            by_cases h10 : c.toNat = 10
            · rw [if_pos h10]; decide
            · rw [if_neg h10]
              by_cases h13 : c.toNat = 13
              · rw [if_pos h13]; decide
              · rw [if_neg h13]
                by_cases h9 : c.toNat = 9
                · rw [if_pos h9]; decide
                · rw [if_neg h9]
                  by_cases h11 : c.toNat = 11
                  · rw [if_pos h11]; decide
                  · rw [if_neg h11]
                    intro hm
                    simp only [List.mem_cons, List.not_mem_nil, or_false] at hm
                    rcases hm with h | h | h | h
                    · exact absurd h (by decide)
                    · exact absurd h (by decide)
                    · exact absurd h.symm (lowerHexDig_ne_nl _ (by omega))
                    · exact absurd h.symm (lowerHexDig_ne_nl _ (by omega))

theorem unquoteChar_quoteChar (c : Char) (rest : Str) :
    unquoteChar dquote (quoteChar c ++ rest) = some (c, rest) := by
  by_cases h1 : c = dquote ∨ c = bslash
  · rw [quoteChar, if_pos (by simpa using h1)]
    rcases h1 with h | h <;> subst h <;> rfl
  · have h1a : ¬ c = dquote := fun e => h1 (Or.inl e)
    have h1b : ¬ c = bslash := fun e => h1 (Or.inr e)
    by_cases h2 : isPrintGo c = true
    · rw [quoteChar, if_neg (by simpa using h1), if_pos h2]
      show unquoteChar dquote (c :: rest) = some (c, rest)
      simp only [unquoteChar]
      rw [if_neg h1a, if_pos h1b]
    · have hb := not_print_bounds c h2
      rw [quoteChar, if_neg (by simpa using h1), if_neg h2]
      by_cases h7 : c.toNat = 7
      · rw [if_pos h7]
        have he : unquoteChar dquote (bslash :: Char.ofNat 97 :: rest)
            = some (Char.ofNat 7, rest) := rfl
        show unquoteChar dquote (bslash :: Char.ofNat 97 :: rest) = some (c, rest)
        rw [he, ← h7, Char.ofNat_toNat]
      · rw [if_neg h7]
        by_cases h8 : c.toNat = 8
        · rw [if_pos h8]
          have he : unquoteChar dquote (bslash :: Char.ofNat 98 :: rest)
              = some (Char.ofNat 8, rest) := rfl
          show unquoteChar dquote (bslash :: Char.ofNat 98 :: rest) = some (c, rest)
          rw [he, ← h8, Char.ofNat_toNat]
        · rw [if_neg h8]
          by_cases h12 : c.toNat = 12
          · rw [if_pos h12]
            have he : unquoteChar dquote (bslash :: Char.ofNat 102 :: rest)
                = some (Char.ofNat 12, rest) := rfl
            show unquoteChar dquote (bslash :: Char.ofNat 102 :: rest) = some (c, rest)
            rw [he, ← h12, Char.ofNat_toNat]
          · rw [if_neg h12]
            by_cases h10 : c.toNat = 10
            · rw [if_pos h10]
              have he : unquoteChar dquote (bslash :: Char.ofNat 110 :: rest)
                  = some (Char.ofNat 10, rest) := rfl
              show unquoteChar dquote (bslash :: Char.ofNat 110 :: rest) = some (c, rest)
              rw [he, ← h10, Char.ofNat_toNat]
            · rw [if_neg h10]
              by_cases h13 : c.toNat = 13
              · rw [if_pos h13]
                have he : unquoteChar dquote (bslash :: Char.ofNat 114 :: rest)
                    = some (Char.ofNat 13, rest) := rfl
                show unquoteChar dquote (bslash :: Char.ofNat 114 :: rest) = some (c, rest)
                rw [he, ← h13, Char.ofNat_toNat]
              · rw [if_neg h13]
                by_cases h9 : c.toNat = 9
                · rw [if_pos h9]
                  have he : unquoteChar dquote (bslash :: Char.ofNat 116 :: rest)
                      = some (Char.ofNat 9, rest) := rfl
                  show unquoteChar dquote (bslash :: Char.ofNat 116 :: rest) = some (c, rest)
                  rw [he, ← h9, Char.ofNat_toNat]
                · rw [if_neg h9]
                  by_cases h11 : c.toNat = 11
                  · rw [if_pos h11]
                    have he : unquoteChar dquote (bslash :: Char.ofNat 118 :: rest)
                        = some (Char.ofNat 11, rest) := rfl
                    show unquoteChar dquote (bslash :: Char.ofNat 118 :: rest) = some (c, rest)
                    rw [he, ← h11, Char.ofNat_toNat]
                  · rw [if_neg h11]
                    show unquoteChar dquote (bslash :: Char.ofNat 120 ::
                      lowerHexDig (c.toNat / 16) :: lowerHexDig (c.toNat % 16) :: rest)
                      = some (c, rest)
                    have he : unquoteChar dquote (bslash :: Char.ofNat 120 ::
                        lowerHexDig (c.toNat / 16) :: lowerHexDig (c.toNat % 16) :: rest)
                        = match hexVal (lowerHexDig (c.toNat / 16)),
                                hexVal (lowerHexDig (c.toNat % 16)) with
                          | some v1, some v2 => some (Char.ofNat (16 * v1 + v2), rest)
                          | _, _ => none := rfl
                    rw [he, hexVal_lowerHexDig _ (by omega), hexVal_lowerHexDig _ (by omega)]
                    show some (Char.ofNat (16 * (c.toNat / 16) + c.toNat % 16), rest)
                      = some (c, rest)
                    rw [Nat.div_add_mod, Char.ofNat_toNat]

theorem unquoteLoop_flatMap (s : Str) : ∀ f : Nat, (s.flatMap quoteChar).length ≤ f →
    unquoteLoop dquote f (s.flatMap quoteChar) = some s := by
  induction s with
  | nil =>
    intro f _
    cases f <;> rfl
  | cons c cs ih =>
    intro f hf
    rw [List.flatMap_cons] at hf ⊢
    obtain ⟨q0, qrest, he⟩ :=
      List.exists_cons_of_ne_nil (List.length_pos.mp (quoteChar_length_pos c))
    cases f with
    | zero =>
      exfalso
      have hp := quoteChar_length_pos c
      rw [List.length_append] at hf
      omega
    | succ f2 =>
      rw [he, List.cons_append]
      simp only [unquoteLoop]
      rw [← List.cons_append, ← he, unquoteChar_quoteChar]
      show Option.map (fun x => c :: x) (unquoteLoop dquote f2 (cs.flatMap quoteChar))
        = some (c :: cs)
      rw [ih f2 (by
        have hp := quoteChar_length_pos c
        rw [List.length_append] at hf
        omega)]
      rfl

theorem contains_eq_false_of_not_mem (l : Str) (a : Char) (h : a ∉ l) :
    l.contains a = false := by
  induction l with
  | nil => rfl
  | cons c t ih =>
    have hna : (a == c) = false := beq_eq_false_iff_ne.mpr (fun e => h (by simp [e]))
    have hnt : a ∉ t := fun m => h (List.mem_cons_of_mem _ m)
    simp only [List.contains, List.elem, hna]
    exact ih hnt

theorem goQuote_no_nl (v : Str) : nl ∉ goQuote v := by
  rw [goQuote]
  intro hm
  simp only [List.mem_cons, List.mem_append, List.mem_flatMap, List.mem_singleton] at hm
  rcases hm with h | ⟨b, _, hb⟩ | h
  · exact absurd h (by decide)
  · exact absurd hb (quoteChar_no_nl b)
  · exact absurd h (by decide)

theorem goUnquote_goQuote (v : Str) : goUnquote (goQuote v) = some v := by
  cases hv : v.flatMap quoteChar with
  | nil =>
    have hvnil : v = [] := by
      cases v with
      | nil => rfl
      | cons c cs =>
        exfalso
        rw [List.flatMap_cons] at hv
        have hp := quoteChar_length_pos c
        have hl := congrArg List.length hv
        rw [List.length_append] at hl
        simp only [List.length_nil] at hl
        omega
    subst hvnil
    rfl
  | cons b0 bt =>
    rw [goQuote, hv, List.cons_append]
    simp only [goUnquote]
    have hlast : (b0 :: (bt ++ [dquote])).getLast? = some dquote := by
      rw [show b0 :: (bt ++ [dquote]) = (b0 :: bt) ++ [dquote] by simp]
      exact List.getLast?_concat _
    rw [if_neg (by simp [hlast])]
    have hdl : (b0 :: (bt ++ [dquote])).dropLast = b0 :: bt := by
      rw [show b0 :: (bt ++ [dquote]) = (b0 :: bt) ++ [dquote] by simp]
      exact List.dropLast_concat
    rw [hdl]
    rw [if_neg (by decide)]
    rw [if_neg (by decide)]
    have hcont : (b0 :: bt).contains nl = false := by
      apply contains_eq_false_of_not_mem
      rw [← hv]
      intro hm
      rcases List.mem_flatMap.mp hm with ⟨b, _, hb⟩
      exact absurd hb (quoteChar_no_nl b)
    rw [if_neg (by simp only [hcont]; exact Bool.false_ne_true)]
    rw [← hv, unquoteLoop_flatMap v _ (le_refl _)]
    show (if dquote = squote ∧ 2 ≤ List.length v then none else some v) = some v
    rw [if_neg (fun h => absurd h.1 (by decide))]

/-! ### Line-level decode lemmas -/

theorem parseTomlValue_goQuote (v : Str) : parseTomlValue (goQuote v) = .ok v := by
  rw [parseTomlValue]
  rw [if_neg (by rw [goQuote]; simp)]
  rw [if_pos (by rw [goQuote]; simp [hasPre, List.isPrefixOf])]
  rw [goUnquote_goQuote]

theorem trimRight_of_trimRight_append_space (k : Str) (h : trimRight k = k) :
    trimRight (k ++ [spaceC]) = k := by
  have hdw : k.reverse.dropWhile isSpaceGo = k.reverse := by
    have h2 := congrArg List.reverse h
    rwa [trimRight, List.reverse_reverse] at h2
  rw [trimRight]
  rw [show (k ++ [spaceC]).reverse = spaceC :: k.reverse by simp]
  rw [show List.dropWhile isSpaceGo (spaceC :: k.reverse)
    = List.dropWhile isSpaceGo k.reverse from rfl]
  rw [hdw, List.reverse_reverse]

theorem kvLine_facts (k v : Str) (hk : WellKey k) :
    trimSpace (kvLine k v) = kvLine k v ∧
    kvLine k v ≠ [] ∧
    hasPre (kvLine k v) [hashC] = false ∧
    (hasPre (kvLine k v) [lbrC] && hasSuf (kvLine k v) [rbrC]) = false ∧
    splitEq (kvLine k v) = some (k ++ [spaceC], spaceC :: goQuote v) ∧
    trimSpace (k ++ [spaceC]) = k ∧
    trimSpace (spaceC :: goQuote v) = goQuote v := by
  obtain ⟨hne, htrim, heq, hnl, hhash⟩ := hk
  obtain ⟨c, kt, hck⟩ := List.exists_cons_of_ne_nil hne
  obtain ⟨hTL, hTR⟩ := trim_parts k htrim
  have hsep : str " = " = [spaceC, eqC, spaceC] := rfl
  have hcsp : isSpaceGo c = false := by
    apply head_not_space_of_trimLeft c kt
    rw [← hck]
    exact hTL
  have hchash : ¬ c = hashC := by
    intro e
    exact hhash (by rw [hck, e]; rfl)
  have hshape : kvLine k v =
      c :: ((kt ++ [spaceC, eqC, spaceC] ++ (dquote :: v.flatMap quoteChar)) ++ [dquote]) := by
    rw [kvLine, hsep, goQuote, hck]
    simp only [List.cons_append, List.append_assoc]
  refine ⟨?_, ?_, ?_, ?_, ?_, ?_, ?_⟩
  · rw [hshape]
    exact trimSpace_cons_concat _ _ _ hcsp (by decide)
  · rw [hshape]
    simp
  · rw [hshape]
    simp only [hasPre, List.isPrefixOf]
    simp [beq_eq_false_iff_ne]
    exact fun e => hchash e.symm
  · have hsuf : hasSuf (kvLine k v) [rbrC] = false := by
      rw [hshape]
      simp only [hasSuf, List.isSuffixOf, List.reverse_cons, List.reverse_append]
      simp [List.isPrefixOf]
      decide
    rw [hsuf, Bool.and_false]
  · have hsplit : kvLine k v = (k ++ [spaceC]) ++ eqC :: (spaceC :: goQuote v) := by
      rw [kvLine, hsep]
      simp only [List.cons_append, List.append_assoc, List.nil_append, List.singleton_append]
    rw [hsplit]
    apply splitEq_append
    intro hm
    rcases List.mem_append.mp hm with h | h
    · exact heq h
    · simp at h
      exact absurd h.symm (by decide)
  · rw [trimSpace, trimRight_of_trimRight_append_space k hTR]
    exact hTL
  · have hgq : goQuote v = (dquote :: v.flatMap quoteChar) ++ [dquote] := by
      rw [goQuote]
      simp
    rw [trimSpace]
    have h1 : trimRight (spaceC :: goQuote v) = spaceC :: goQuote v := by
      rw [hgq, show spaceC :: ((dquote :: v.flatMap quoteChar) ++ [dquote])
        = (spaceC :: dquote :: v.flatMap quoteChar) ++ [dquote] by simp]
      exact trimRight_concat _ _ (by decide)
    rw [h1]
    have h2 : trimLeft (spaceC :: goQuote v) = trimLeft (goQuote v) := by
      rw [trimLeft, trimLeft, List.dropWhile, show isSpaceGo spaceC = true from rfl]
    rw [h2, hgq]
    rw [show trimLeft ((dquote :: v.flatMap quoteChar) ++ [dquote])
      = (dquote :: v.flatMap quoteChar) ++ [dquote] from
        trimLeft_cons _ _ (by decide)]

theorem processLine_blank (st : LoadState) :
    processLine st [] = .ok { st with currentCommand := [], inExecutors := false } := rfl

theorem processLine_execHeader (st : LoadState) :
    processLine st (str "[executors]")
      = .ok { st with currentCommand := [], inExecutors := true } := rfl

theorem processLine_kv_scalar (st : LoadState) (k v : Str) (hk : WellKey k)
    (hex : st.inExecutors = false) (hcc : st.currentCommand = []) :
    processLine st (kvLine k v) = .ok { st with cfg := { st.cfg with
      scalars := mapInsert k v st.cfg.scalars } } := by
  obtain ⟨hf1, hf2, hf3, hf4, hf5, hf6, hf7⟩ := kvLine_facts k v hk
  simp only [processLine, hf1, hf2, hf3, hf4, hf5, hf6, hf7, parseTomlValue_goQuote,
    if_false, Bool.false_eq_true, hex, hcc, ne_eq, not_true_eq_false, ite_false,
    reduceCtorEq, not_false_eq_true, ite_true]
  rw [if_neg hk.1]

theorem processLine_kv_exec (st : LoadState) (k v : Str) (hk : WellKey k)
    (hex : st.inExecutors = true) :
    processLine st (kvLine k v) = .ok { st with cfg := { st.cfg with
      executors := mapInsert (toLowerGo k) v st.cfg.executors } } := by
  obtain ⟨hf1, hf2, hf3, hf4, hf5, hf6, hf7⟩ := kvLine_facts k v hk
  simp only [processLine, hf1, hf2, hf3, hf4, hf5, hf6, hf7, parseTomlValue_goQuote,
    if_false, Bool.false_eq_true, hex, ne_eq, ite_true, reduceCtorEq, not_false_eq_true]
  rw [if_neg hk.1]

theorem processLine_kv_path (st : LoadState) (a v : Str)
    (hex : st.inExecutors = false) (hcc : st.currentCommand = a) (ha : a ≠ []) :
    processLine st (kvLine (str "path") v) = .ok { st with cfg := { st.cfg with
      commands := mapInsert a
        { (mapLookup a st.cfg.commands).getD ⟨[], []⟩ with path := v }
        st.cfg.commands } } := by
  obtain ⟨hf1, hf2, hf3, hf4, hf5, hf6, hf7⟩ := kvLine_facts (str "path") v
    ⟨by decide, by decide, by decide, by decide, by decide⟩
  simp only [processLine, hf1, hf2, hf3, hf4, hf5, hf6, hf7, parseTomlValue_goQuote,
    if_false, Bool.false_eq_true, hex, hcc, ne_eq, ite_true, reduceCtorEq,
    not_false_eq_true, ha, ite_false]
  rw [if_neg (show ¬ str "path" = [] by decide)]

theorem processLine_kv_description (st : LoadState) (a v : Str)
    (hex : st.inExecutors = false) (hcc : st.currentCommand = a) (ha : a ≠ []) :
    processLine st (kvLine (str "description") v) = .ok { st with cfg := { st.cfg with
      commands := mapInsert a
        { (mapLookup a st.cfg.commands).getD ⟨[], []⟩ with description := v }
        st.cfg.commands } } := by
  obtain ⟨hf1, hf2, hf3, hf4, hf5, hf6, hf7⟩ := kvLine_facts (str "description") v
    ⟨by decide, by decide, by decide, by decide, by decide⟩
  simp only [processLine, hf1, hf2, hf3, hf4, hf5, hf6, hf7, parseTomlValue_goQuote,
    if_false, Bool.false_eq_true, hex, hcc, ne_eq, ite_true, reduceCtorEq,
    not_false_eq_true, ha, ite_false]
  rw [if_neg (show ¬ str "description" = [] by decide)]
  rw [if_neg (show ¬ str "description" = str "path" by decide)]

theorem isPrefixOf_append_self (p t : Str) : p.isPrefixOf (p ++ t) = true := by
  induction p with
  | nil => simp [List.isPrefixOf]
  | cons c cs ih => simp [List.isPrefixOf, ih]

theorem processLine_cmdHeader (st : LoadState) (a : Str) (ha : a ≠ []) :
    processLine st (str "[commands." ++ a ++ [rbrC]) =
      .ok { st with
        cfg :=
          if (mapLookup a st.cfg.commands).isNone then
            { st.cfg with commands := mapInsert a ⟨[], []⟩ st.cfg.commands }
          else st.cfg,
        currentCommand := a, inExecutors := false } := by
  have hline : str "[commands." ++ a ++ [rbrC]
      = lbrC :: ((str "commands." ++ a) ++ [rbrC]) := by
    rw [show str "[commands." = lbrC :: str "commands." from rfl]
    simp
  have htrim : trimSpace (str "[commands." ++ a ++ [rbrC])
      = str "[commands." ++ a ++ [rbrC] := by
    rw [hline]
    exact trimSpace_cons_concat _ _ _ (by decide) (by decide)
  have hne : str "[commands." ++ a ++ [rbrC] ≠ [] := by
    rw [hline]
    simp
  have hhash : hasPre (str "[commands." ++ a ++ [rbrC]) [hashC] = false := by
    rw [hline]
    simp [hasPre, List.isPrefixOf]
    decide
  have hpre : hasPre (str "[commands." ++ a ++ [rbrC]) [lbrC] = true := by
    rw [hline]
    simp [hasPre, List.isPrefixOf]
  have hsuf : hasSuf (str "[commands." ++ a ++ [rbrC]) [rbrC] = true := by
    rw [show str "[commands." ++ a ++ [rbrC] = (str "[commands." ++ a) ++ [rbrC] by simp]
    simp [hasSuf, List.isSuffixOf, List.reverse_append, List.isPrefixOf]
  have hdrop : ((str "[commands." ++ a ++ [rbrC]).drop 1).dropLast
      = str "commands." ++ a := by
    rw [hline]
    simp only [List.drop_succ_cons, List.drop_zero]
    exact List.dropLast_concat
  have hsec : ¬ ((str "commands." ++ a) = str "executors") := by
    intro h
    have h2 := congrArg List.head? h
    rw [show str "commands." ++ a = 'c' :: (str "ommands." ++ a) from rfl] at h2
    simp [str] at h2
  have hprec : hasPre (str "commands." ++ a) (str "commands.") = true := by
    simp [hasPre, isPrefixOf_append_self]
  have hname : (str "commands." ++ a).drop 9 = a := by
    rw [show (9 : Nat) = (str "commands.").length from rfl]
    exact List.drop_left _ _
  simp only [processLine, htrim]
  rw [if_neg hne]
  rw [if_neg (by rw [hhash]; exact Bool.false_ne_true)]
  rw [if_pos (by rw [hpre, hsuf]; rfl)]
  rw [hdrop]
  rw [if_neg hsec]
  rw [hprec]
  rw [if_pos rfl]
  rw [hname]
  rw [if_neg ha]

/-! ### Block-level decode lemmas -/

theorem strLt_irrefl (a : Str) : strLt a a = false := by
  induction a with
  | nil => rfl
  | cons c t ih =>
    rw [strLt, if_pos rfl]
    exact ih

theorem nodup_of_pairwise_strLt (l : List Str)
    (h : l.Pairwise (fun x y => strLt x y = true)) : l.Nodup := by
  apply List.Pairwise.imp ?_ h
  intro a b hab e
  subst e
  rw [strLt_irrefl] at hab
  cases hab

theorem loadLinesAux_cons_ok (st st1 : LoadState) (l : Str) (ls : List Str)
    (h : processLine st l = .ok st1) :
    loadLinesAux st (l :: ls) = loadLinesAux st1 ls := by
  rw [loadLinesAux, h]

theorem loadLinesAux_append_ok (st st1 : LoadState) (a b : List Str)
    (h : loadLinesAux st a = .ok st1) :
    loadLinesAux st (a ++ b) = loadLinesAux st1 b := by
  rw [loadLinesAux_append, h]

theorem loadLinesAux_scalars (S : List (Str × Str)) (st : LoadState)
    (hkeys : ∀ kv ∈ S, WellKey kv.1)
    (hex : st.inExecutors = false) (hcc : st.currentCommand = []) :
    loadLinesAux st (S.map (fun kv => kvLine kv.1 kv.2)) =
      .ok { st with cfg := { st.cfg with
        scalars := S.foldl (fun m kv => mapInsert kv.1 kv.2 m) st.cfg.scalars } } := by
  induction S generalizing st with
  | nil =>
    simp [loadLinesAux]
  | cons kv S2 ih =>
    rw [List.map_cons]
    rw [loadLinesAux_cons_ok _ _ _ _
      (processLine_kv_scalar st kv.1 kv.2 (hkeys kv (by simp)) hex hcc)]
    rw [ih { st with cfg := { st.cfg with
        scalars := mapInsert kv.1 kv.2 st.cfg.scalars } }
      (fun kv2 h2 => hkeys kv2 (by simp [h2])) hex hcc]
    simp [List.foldl_cons]

theorem loadLinesAux_execs (S : List (Str × Str)) (st : LoadState)
    (hkeys : ∀ kv ∈ S, WellKey kv.1 ∧ toLowerGo kv.1 = kv.1)
    (hex : st.inExecutors = true) :
    loadLinesAux st (S.map (fun kv => kvLine kv.1 kv.2)) =
      .ok { st with cfg := { st.cfg with
        executors := S.foldl (fun m kv => mapInsert kv.1 kv.2 m) st.cfg.executors } } := by
  induction S generalizing st with
  | nil =>
    simp [loadLinesAux]
  | cons kv S2 ih =>
    rw [List.map_cons]
    have hstep : processLine st (kvLine kv.1 kv.2) = .ok { st with cfg := { st.cfg with
        executors := mapInsert kv.1 kv.2 st.cfg.executors } } := by
      rw [processLine_kv_exec st kv.1 kv.2 (hkeys kv (by simp)).1 hex]
      rw [(hkeys kv (by simp)).2]
    rw [loadLinesAux_cons_ok _ _ _ _ hstep]
    rw [ih { st with cfg := { st.cfg with
        executors := mapInsert kv.1 kv.2 st.cfg.executors } }
      (fun kv2 h2 => hkeys kv2 (by simp [h2])) hex]
    simp [List.foldl_cons]

theorem loadLinesAux_cmdBlock (a : Str) (d : commandDefinition) (st : LoadState)
    (ha : a ≠ []) (habs : mapLookup a st.cfg.commands = none) :
    loadLinesAux st (cmdBlock a d) =
      .ok { st with
        cfg := { st.cfg with commands := st.cfg.commands ++ [(a, d)] },
        currentCommand := a, inExecutors := false } := by
  have h1 : processLine st (str "[commands." ++ a ++ [rbrC])
      = .ok { st with
          cfg := { st.cfg with commands := mapInsert a ⟨[], []⟩ st.cfg.commands },
          currentCommand := a, inExecutors := false } := by
    rw [processLine_cmdHeader st a ha]
    rw [if_pos (by rw [habs]; rfl)]
  have h2 : processLine { st with
          cfg := { st.cfg with commands := mapInsert a ⟨[], []⟩ st.cfg.commands },
          currentCommand := a, inExecutors := false } (kvLine (str "path") d.path)
      = .ok { st with
          cfg := { st.cfg with commands := mapInsert a ⟨d.path, []⟩ st.cfg.commands },
          currentCommand := a, inExecutors := false } := by
    rw [processLine_kv_path _ a d.path rfl rfl ha]
    simp only [mapLookup_insert_self, Option.getD_some, mapInsert_insert_same]
  have h3 : processLine { st with
          cfg := { st.cfg with commands := mapInsert a ⟨d.path, []⟩ st.cfg.commands },
          currentCommand := a, inExecutors := false } (kvLine (str "description") d.description)
      = .ok { st with
          cfg := { st.cfg with commands := mapInsert a d st.cfg.commands },
          currentCommand := a, inExecutors := false } := by
    rw [processLine_kv_description _ a d.description rfl rfl ha]
    simp only [mapLookup_insert_self, Option.getD_some, mapInsert_insert_same]
  rw [cmdBlock]
  rw [loadLinesAux_cons_ok _ _ _ _ h1, loadLinesAux_cons_ok _ _ _ _ h2,
    loadLinesAux_cons_ok _ _ _ _ h3]
  rw [loadLinesAux]
  rw [mapInsert_absent _ _ _ habs]

theorem loadLinesAux_cmdBlocks (C : List (Str × commandDefinition)) (st : LoadState)
    (hal : ∀ kv ∈ C, kv.1 ≠ [])
    (habs : ∀ kv ∈ C, mapLookup kv.1 st.cfg.commands = none)
    (hnodup : (C.map Prod.fst).Nodup) :
    ∃ st2, loadLinesAux st (joinBlocks (C.map (fun kv => cmdBlock kv.1 kv.2))) = .ok st2 ∧
      st2.cfg = { st.cfg with commands := st.cfg.commands ++ C } := by
  induction C generalizing st with
  | nil =>
    refine ⟨st, by simp [joinBlocks, loadLinesAux], by simp⟩
  | cons kv C2 ih =>
    cases C2 with
    | nil =>
      refine ⟨{ st with
          cfg := { st.cfg with commands := st.cfg.commands ++ [kv] },
          currentCommand := kv.1, inExecutors := false }, ?_, by simp⟩
      rw [List.map_cons, List.map_nil]
      rw [show joinBlocks [cmdBlock kv.1 kv.2] = cmdBlock kv.1 kv.2 from rfl]
      rw [loadLinesAux_cmdBlock kv.1 kv.2 st (hal kv (by simp)) (habs kv (by simp))]
    | cons kv2 C3 =>
      rw [List.map_cons]
      rw [show joinBlocks (cmdBlock kv.1 kv.2 :: List.map (fun kv => cmdBlock kv.1 kv.2) (kv2 :: C3))
        = cmdBlock kv.1 kv.2 ++ ([] :: joinBlocks (List.map (fun kv => cmdBlock kv.1 kv.2) (kv2 :: C3)))
        from rfl]
      rw [loadLinesAux_append_ok _ _ _ _
        (loadLinesAux_cmdBlock kv.1 kv.2 st (hal kv (by simp)) (habs kv (by simp)))]
      rw [loadLinesAux_cons_ok _ _ _ _ (processLine_blank _)]
      have hfresh : ∀ kv3 ∈ kv2 :: C3,
          mapLookup kv3.1 (st.cfg.commands ++ [kv]) = none := by
        intro kv3 h3
        rw [mapLookup_append, habs kv3 (by simp [h3])]
        have hne : kv3.1 ≠ kv.1 := by
          have hh := (List.pairwise_cons.mp hnodup).1
          intro e
          exact hh kv3.1 (List.mem_map_of_mem _ h3) e.symm
        simp [mapLookup, hne]
        exact fun e => hne e.symm
      obtain ⟨st2, hrun, hcfg⟩ := ih { st with
          cfg := { st.cfg with commands := st.cfg.commands ++ [kv] },
          currentCommand := [], inExecutors := false }
        (fun kv3 h3 => hal kv3 (by simp [h3])) hfresh
        (List.pairwise_cons.mp hnodup).2
      refine ⟨st2, hrun, ?_⟩
      rw [hcfg]
      simp

theorem mergeDefaultExecutors_noop (ex : List (Str × Str))
    (hjs : (mapLookup (str "js") ex).isSome)
    (hpy : (mapLookup (str "py") ex).isSome)
    (hsh : (mapLookup (str "sh") ex).isSome) :
    mergeDefaultExecutors ex = ex := by
  obtain ⟨v1, h1⟩ := Option.isSome_iff_exists.mp hjs
  obtain ⟨v2, h2⟩ := Option.isSome_iff_exists.mp hpy
  obtain ⟨v3, h3⟩ := Option.isSome_iff_exists.mp hsh
  rw [mergeDefaultExecutors, defaultExecutors]
  simp only [List.foldl_cons, List.foldl_nil]
  rw [h1]
  simp only [Option.isNone_some, Bool.false_eq_true, if_false]
  rw [h2]
  simp only [Option.isNone_some, Bool.false_eq_true, if_false]
  rw [h3]
  simp only [Option.isNone_some, Bool.false_eq_true, if_false]

theorem keysMap_lookup (sc : List (Str × α)) (d : α) (f : Str → α → β)
    (hnd : (mapKeys sc).Nodup) :
    (mapKeys sc).map (fun k => f k ((mapLookup k sc).getD d)) =
      sc.map (fun kv => f kv.1 kv.2) := by
  induction sc with
  | nil => rfl
  | cons kv rest ih =>
    rw [show mapKeys (kv :: rest) = kv.1 :: mapKeys rest from rfl]
    rw [List.map_cons, List.map_cons]
    congr 1
    · rw [mapLookup, if_pos rfl, Option.getD_some]
    · have hne := (List.pairwise_cons.mp hnd).1
      have htail := (List.pairwise_cons.mp hnd).2
      rw [← ih htail]
      apply List.map_congr_left
      intro k hkmem
      have : ¬ (kv.1 = k) := hne k hkmem
      rw [mapLookup, if_neg this]

/-! ### Scanner round trip -/

theorem splitNl_block (l rest : Str) (h : nl ∉ l) :
    splitNl (l ++ nl :: rest) = l :: splitNl rest := by
  induction l with
  | nil => simp [splitNl]
  | cons c t ih =>
    have hc : ¬ (c = nl) := fun e => h (by simp [e])
    have ht : nl ∉ t := fun m => h (List.mem_cons_of_mem _ m)
    rw [List.cons_append]
    simp only [splitNl, if_neg hc, ih ht]

theorem joinLines_cons (l : Str) (rest : List Str) :
    joinLines (l :: rest) = l ++ nl :: joinLines rest := by
  simp [joinLines]

theorem splitNl_joinLines (M : List Str) (hM : ∀ l ∈ M, nl ∉ l) :
    splitNl (joinLines M) = M ++ [[]] := by
  induction M with
  | nil => rfl
  | cons a as ih =>
    rw [joinLines_cons, splitNl_block a _ (hM a (by simp))]
    rw [ih (fun l hl => hM l (by simp [hl]))]
    simp

theorem byteLen_le_scanBudgetLen (s : Str) : byteLen s ≤ scanBudgetLen s := by
  rw [byteLen, scanBudgetLen]
  suffices h : ∀ (a b : Nat), a ≤ b →
      s.foldl (fun n c => n + utf8Len c) a ≤ s.foldl (fun n c => n + scanBudget c) b from
    h 0 0 le_rfl
  induction s with
  | nil =>
    intro a b hab
    simpa using hab
  | cons c t ih =>
    intro a b hab
    simp only [List.foldl_cons]
    apply ih
    have hcb : utf8Len c ≤ scanBudget c := by
      by_cases h1 : c.toNat < 128
      · simp [utf8Len, scanBudget, h1]
      · simp only [utf8Len, scanBudget, if_neg h1]
        split
        · omega
        · split <;> omega
    omega

theorem lineFits_of_budget (l : Str) (h : scanBudgetLen l < maxScanTokenSize) :
    lineFits l = true := by
  rw [lineFits]
  exact decide_eq_true (lt_of_le_of_lt (byteLen_le_scanBudgetLen l) h)

theorem scanTokens_id (L : List Str)
    (h : ∀ l ∈ L, l.getLast? ≠ some cr ∧ lineFits l = true) :
    scanTokens L = (L, true) := by
  induction L with
  | nil => rfl
  | cons l rest ih =>
    rw [scanTokens]
    rw [if_pos (h l (List.mem_cons_self l rest)).2]
    show (stripCR l :: (scanTokens rest).1, (scanTokens rest).2) = (l :: rest, true)
    rw [ih (fun x hx => h x (List.mem_cons_of_mem _ hx))]
    rw [stripCR, if_neg (h l (List.mem_cons_self l rest)).1]

theorem scanLines_joinLines (L : List Str)
    (h : ∀ l ∈ L, nl ∉ l ∧ l.getLast? ≠ some cr ∧ lineFits l = true) :
    scanLines (joinLines L) = (L, true) := by
  cases L with
  | nil => rfl
  | cons l0 L2 =>
    have hjoin : joinLines (l0 :: L2) = l0 ++ nl :: joinLines L2 := joinLines_cons _ _
    have hne : joinLines (l0 :: L2) ≠ [] := by
      rw [hjoin]
      intro e
      have hlen := congrArg List.length e
      simp at hlen
    rw [scanLines, if_neg hne]
    rw [splitNl_joinLines _ (fun l hl => (h l hl).1)]
    show scanTokens (if ((l0 :: L2) ++ [[]]).getLast? = some [] then
      ((l0 :: L2) ++ [[]]).dropLast else (l0 :: L2) ++ [[]]) = (l0 :: L2, true)
    rw [List.getLast?_concat]
    rw [if_pos rfl]
    rw [List.dropLast_concat]
    exact scanTokens_id _ (fun l hl => (h l hl).2)

/-! ### Safety of the emitted lines -/

theorem kvLine_lineOk (k v : Str) (hknl : nl ∉ k) :
    nl ∉ kvLine k v ∧ (kvLine k v).getLast? = some dquote := by
  have hshape : kvLine k v
      = (k ++ [spaceC, eqC, spaceC] ++ (dquote :: v.flatMap quoteChar)) ++ [dquote] := by
    rw [kvLine, show str " = " = [spaceC, eqC, spaceC] from rfl, goQuote]
    simp [List.append_assoc]
  constructor
  · rw [kvLine]
    intro hm
    simp only [List.mem_append] at hm
    rcases hm with (hm | hm) | hm
    · exact hknl hm
    · revert hm
      decide
    · exact goQuote_no_nl v hm
  · rw [hshape]
    exact List.getLast?_concat _

theorem cmdHeader_lineOk (a : Str) (hanl : nl ∉ a) :
    nl ∉ (str "[commands." ++ a ++ [rbrC]) ∧
    (str "[commands." ++ a ++ [rbrC]).getLast? = some rbrC := by
  constructor
  · intro hm
    simp only [List.mem_append] at hm
    rcases hm with (hm | hm) | hm
    · revert hm
      decide
    · exact hanl hm
    · revert hm
      decide
  · rw [show str "[commands." ++ a ++ [rbrC] = (str "[commands." ++ a) ++ [rbrC] by simp]
    exact List.getLast?_concat _

theorem mem_joinBlocks (l : Str) (bs : List (List Str)) (h : l ∈ joinBlocks bs) :
    (∃ b ∈ bs, l ∈ b) ∨ l = [] := by
  induction bs with
  | nil => cases h
  | cons b bs2 ih =>
    cases bs2 with
    | nil =>
      left
      exact ⟨b, by simp, h⟩
    | cons b2 bs3 =>
      rw [show joinBlocks (b :: b2 :: bs3) = b ++ [[]] ++ joinBlocks (b2 :: bs3) from rfl] at h
      simp only [List.mem_append, List.mem_cons] at h
      rcases h with (h | h) | h
      · exact Or.inl ⟨b, by simp, h⟩
      · simp at h
        exact Or.inr h
      · rcases ih h with ⟨b3, hb3, hl⟩ | hnil
        · exact Or.inl ⟨b3, by simp [hb3], hl⟩
        · exact Or.inr hnil

/-! ### The full decode/encode round trip -/

theorem foldl_mapInsert_nil (S : List (Str × α)) (hnd : (S.map Prod.fst).Nodup) :
    S.foldl (fun m2 kv => mapInsert kv.1 kv.2 m2) [] = S := by
  have h := foldl_mapInsert_fresh S [] (fun kv _ => rfl) hnd
  simpa using h

theorem loadConfig_encodeConfig (m : configData)
    (hskeys : ∀ kv ∈ m.scalars, WellKey kv.1)
    (hssort : (mapKeys m.scalars).Pairwise (fun x y => strLt x y = true))
    (hekeys : ∀ kv ∈ m.executors, WellKey kv.1 ∧ toLowerGo kv.1 = kv.1)
    (hesort : (mapKeys m.executors).Pairwise (fun x y => strLt x y = true))
    (hjs : (mapLookup (str "js") m.executors).isSome = true)
    (hpy : (mapLookup (str "py") m.executors).isSome = true)
    (hsh : (mapLookup (str "sh") m.executors).isSome = true)
    (hckeys : ∀ kv ∈ m.commands, kv.1 ≠ [] ∧ nl ∉ kv.1)
    (hcsort : (mapKeys m.commands).Pairwise (fun x y => strLt x y = true))
    (hfits : ∀ l ∈ encodeLines m, scanBudgetLen l < maxScanTokenSize) :
    loadConfig (encodeConfig m) = .ok m := by
  have hexne : m.executors ≠ [] := by
    intro e
    rw [e] at hjs
    simp [mapLookup] at hjs
  have hSrw : encodeScalarLines m.scalars
      = m.scalars.map (fun kv => kvLine kv.1 kv.2) := by
    rw [encodeScalarLines, sortStrs_sorted_id _ hssort]
    exact keysMap_lookup m.scalars [] (fun k w => kvLine k w)
      (nodup_of_pairwise_strLt _ hssort)
  have hErw : encodeExecLines m.executors
      = str "[executors]" :: m.executors.map (fun kv => kvLine kv.1 kv.2) := by
    rw [encodeExecLines, sortStrs_sorted_id _ hesort]
    rw [keysMap_lookup m.executors [] (fun k w => kvLine k w)
      (nodup_of_pairwise_strLt _ hesort)]
  have hCrw : encodeCmdLines m.commands
      = joinBlocks (m.commands.map (fun kv => cmdBlock kv.1 kv.2)) := by
    rw [encodeCmdLines, sortStrs_sorted_id _ hcsort]
    rw [keysMap_lookup m.commands ⟨[], []⟩ (fun k d => cmdBlock k d)
      (nodup_of_pairwise_strLt _ hcsort)]
  have hfoldS : List.foldl (fun m2 kv => mapInsert kv.1 kv.2 m2) [] m.scalars
      = m.scalars := foldl_mapInsert_nil _ (nodup_of_pairwise_strLt _ hssort)
  have hfoldE : List.foldl (fun m2 kv => mapInsert kv.1 kv.2 m2) [] m.executors
      = m.executors := foldl_mapInsert_nil _ (nodup_of_pairwise_strLt _ hesort)
  have hlineOk : ∀ l ∈ encodeLines m, nl ∉ l ∧ l.getLast? ≠ some cr := by
    have hkv : ∀ (S : List (Str × Str)), (∀ kv ∈ S, WellKey kv.1) →
        ∀ l ∈ S.map (fun kv => kvLine kv.1 kv.2), nl ∉ l ∧ l.getLast? ≠ some cr := by
      intro S hS l hl
      obtain ⟨kv, hmem, hEq⟩ := List.mem_map.mp hl
      obtain ⟨h1, h2⟩ := kvLine_lineOk kv.1 kv.2 (hS kv hmem).2.2.2.1
      rw [← hEq]
      refine ⟨h1, ?_⟩
      rw [h2]
      intro e
      exact absurd (Option.some.inj e) (by decide)
    have hblock : ∀ l ∈ joinBlocks (m.commands.map (fun kv => cmdBlock kv.1 kv.2)),
        nl ∉ l ∧ l.getLast? ≠ some cr := by
      intro l hl
      rcases mem_joinBlocks l _ hl with ⟨b, hb, hlb⟩ | hnil
      · obtain ⟨kv, hmem, hEq⟩ := List.mem_map.mp hb
        rw [← hEq] at hlb
        rw [cmdBlock] at hlb
        simp only [List.mem_cons, List.not_mem_nil, or_false] at hlb
        rcases hlb with h | h | h
        · subst h
          obtain ⟨h1, h2⟩ := cmdHeader_lineOk kv.1 (hckeys kv hmem).2
          refine ⟨h1, ?_⟩
          rw [h2]
          intro e
          exact absurd (Option.some.inj e) (by decide)
        · subst h
          obtain ⟨h1, h2⟩ := kvLine_lineOk (str "path") kv.2.path (by decide)
          refine ⟨h1, ?_⟩
          rw [h2]
          intro e
          exact absurd (Option.some.inj e) (by decide)
        · subst h
          obtain ⟨h1, h2⟩ := kvLine_lineOk (str "description") kv.2.description (by decide)
          refine ⟨h1, ?_⟩
          rw [h2]
          intro e
          exact absurd (Option.some.inj e) (by decide)
      · subst hnil
        exact ⟨by simp, by simp⟩
    intro l hl
    simp only [encodeLines, hSrw, hErw, hCrw] at hl
    rw [if_neg hexne] at hl
    simp only [List.mem_append] at hl
    rcases hl with (hl | hl) | hl
    · exact hkv m.scalars hskeys l hl
    · rcases hl with hl2 | hl2
      · by_cases hsm : m.scalars.map (fun kv => kvLine kv.1 kv.2) = []
        · rw [if_pos hsm] at hl2
          cases hl2
        · rw [if_neg hsm] at hl2
          simp at hl2
          subst hl2
          exact ⟨by simp, by simp⟩
      · rcases List.mem_cons.mp hl2 with h | h
        · subst h
          exact ⟨by decide, by decide⟩
        · exact hkv m.executors (fun kv hm => (hekeys kv hm).1) l h
    · by_cases hcm : m.commands = []
      · rw [if_pos hcm] at hl
        cases hl
      · rw [if_neg hcm] at hl
        by_cases hbm : m.scalars.map (fun kv => kvLine kv.1 kv.2) ++
            ((if m.scalars.map (fun kv => kvLine kv.1 kv.2) = [] then [] else [[]]) ++
              (str "[executors]" :: m.executors.map (fun kv => kvLine kv.1 kv.2))) = []
        · rw [if_pos hbm] at hl
          rcases List.mem_append.mp hl with h | h
          · cases h
          · exact hblock l h
        · rw [if_neg hbm] at hl
          rcases List.mem_append.mp hl with h | h
          · simp at h
            subst h
            exact ⟨by simp, by simp⟩
          · exact hblock l h
  have hscan : scanLines (encodeConfig m) = (encodeLines m, true) := by
    rw [encodeConfig]
    exact scanLines_joinLines _ (fun l hl =>
      ⟨(hlineOk l hl).1, (hlineOk l hl).2, lineFits_of_budget l (hfits l hl)⟩)
  have hmain : ∃ stF, loadLinesAux initState (encodeLines m) = .ok stF ∧
      stF.cfg = ⟨m.scalars, m.commands, m.executors⟩ := by
    by_cases hs0 : m.scalars = []
    · by_cases hc0 : m.commands = []
      · have hll : encodeLines m
            = str "[executors]" :: m.executors.map (fun kv => kvLine kv.1 kv.2) := by
          simp only [encodeLines, hSrw, hErw, hCrw]
          rw [if_neg hexne]
          simp [hs0, hc0]
        rw [hll]
        rw [loadLinesAux_cons_ok _ _ _ _ (processLine_execHeader initState)]
        rw [loadLinesAux_execs _ _ hekeys rfl]
        exact ⟨_, rfl, by rw [hs0, hc0]; simp [initState, hfoldE]⟩
      · have hll : encodeLines m
            = str "[executors]" :: (m.executors.map (fun kv => kvLine kv.1 kv.2)
              ++ ([] :: joinBlocks (m.commands.map (fun kv => cmdBlock kv.1 kv.2)))) := by
          simp only [encodeLines, hSrw, hErw, hCrw]
          rw [if_neg hexne]
          simp [hs0, hc0]
        rw [hll]
        rw [loadLinesAux_cons_ok _ _ _ _ (processLine_execHeader initState)]
        rw [loadLinesAux_append_ok _ _ _ _ (loadLinesAux_execs _ _ hekeys rfl)]
        rw [loadLinesAux_cons_ok _ _ _ _ (processLine_blank _)]
        show ∃ stF, loadLinesAux ⟨⟨[], [],
            List.foldl (fun m2 kv => mapInsert kv.1 kv.2 m2) [] m.executors⟩, [], false⟩
          (joinBlocks (m.commands.map (fun kv => cmdBlock kv.1 kv.2))) = .ok stF ∧
          stF.cfg = ⟨m.scalars, m.commands, m.executors⟩
        rw [hfoldE]
        obtain ⟨st5, hr5, hc5⟩ := loadLinesAux_cmdBlocks m.commands
          ⟨⟨[], [], m.executors⟩, [], false⟩ (fun kv h => (hckeys kv h).1)
          (fun kv h => rfl) (nodup_of_pairwise_strLt _ hcsort)
        refine ⟨st5, hr5, ?_⟩
        rw [hc5]
        rw [hs0]
        simp
    · by_cases hc0 : m.commands = []
      · have hll : encodeLines m
            = m.scalars.map (fun kv => kvLine kv.1 kv.2)
              ++ ([] :: str "[executors]" :: m.executors.map (fun kv => kvLine kv.1 kv.2)) := by
          simp only [encodeLines, hSrw, hErw, hCrw]
          rw [if_neg hexne]
          rw [if_neg (by simp [hs0])]
          simp [hc0]
        rw [hll]
        rw [loadLinesAux_append_ok _ _ _ _ (loadLinesAux_scalars m.scalars initState hskeys rfl rfl)]
        rw [loadLinesAux_cons_ok _ _ _ _ (processLine_blank _)]
        rw [loadLinesAux_cons_ok _ _ _ _ (processLine_execHeader _)]
        rw [loadLinesAux_execs _ _ hekeys rfl]
        exact ⟨_, rfl, by rw [hc0]; simp [initState, hfoldS, hfoldE]⟩
      · have hll : encodeLines m
            = m.scalars.map (fun kv => kvLine kv.1 kv.2)
              ++ ([] :: str "[executors]" :: (m.executors.map (fun kv => kvLine kv.1 kv.2)
                ++ ([] :: joinBlocks (m.commands.map (fun kv => cmdBlock kv.1 kv.2))))) := by
          simp only [encodeLines, hSrw, hErw, hCrw]
          rw [if_neg hexne]
          rw [if_neg (by simp [hs0])]
          rw [if_neg hc0]
          rw [if_neg (by simp)]
          simp
        rw [hll]
        rw [loadLinesAux_append_ok _ _ _ _ (loadLinesAux_scalars m.scalars initState hskeys rfl rfl)]
        rw [loadLinesAux_cons_ok _ _ _ _ (processLine_blank _)]
        rw [loadLinesAux_cons_ok _ _ _ _ (processLine_execHeader _)]
        rw [loadLinesAux_append_ok _ _ _ _ (loadLinesAux_execs _ _ hekeys rfl)]
        rw [loadLinesAux_cons_ok _ _ _ _ (processLine_blank _)]
        show ∃ stF, loadLinesAux ⟨⟨List.foldl (fun m2 kv => mapInsert kv.1 kv.2 m2) [] m.scalars,
            [], List.foldl (fun m2 kv => mapInsert kv.1 kv.2 m2) [] m.executors⟩, [], false⟩
          (joinBlocks (m.commands.map (fun kv => cmdBlock kv.1 kv.2))) = .ok stF ∧
          stF.cfg = ⟨m.scalars, m.commands, m.executors⟩
        rw [hfoldS, hfoldE]
        obtain ⟨st5, hr5, hc5⟩ := loadLinesAux_cmdBlocks m.commands
          ⟨⟨m.scalars, [], m.executors⟩, [], false⟩ (fun kv h => (hckeys kv h).1)
          (fun kv h => rfl) (nodup_of_pairwise_strLt _ hcsort)
        refine ⟨st5, hr5, ?_⟩
        rw [hc5]
        simp
  obtain ⟨stF, hrun, hcfg⟩ := hmain
  simp only [loadConfig, hscan, hrun]
  show Except.ok { stF.cfg with executors := mergeDefaultExecutors stF.cfg.executors }
    = Except.ok m
  rw [hcfg]
  show Except.ok (⟨m.scalars, m.commands, mergeDefaultExecutors m.executors⟩ : configData)
    = Except.ok m
  rw [mergeDefaultExecutors_noop _ hjs hpy hsh]

/-- C1, counterexample to the claim as stated: two models produced by
normal program operations (a scalar key containing `=`, storable via
`-config <key> <value>`; an alias containing a newline, storable via
`add`), with non-empty keys, values and aliases and the default
executors, that the decode/encode round trip does not reproduce: the
first decodes successfully but loses the key `a=b` (the line is split
at its first `=`), the second fails to decode at all. -/
theorem C1_counterexample :
    (loadConfig (encodeConfig ⟨[(str "a=b", str "v")], [], defaultExecutors⟩)
      = .ok ⟨[(str "a", str "b = \"v\"")], [], defaultExecutors⟩ ∧
     mapLookup (str "a=b")
       ((⟨[(str "a", str "b = \"v\"")], [], defaultExecutors⟩ : configData)).scalars = none ∧
     mapLookup (str "a=b")
       ((⟨[(str "a=b", str "v")], [], defaultExecutors⟩ : configData)).scalars
       = some (str "v")) ∧
    (loadConfig (encodeConfig
        ⟨[], [(str "a" ++ [nl] ++ str "b", ⟨str "p", str "d"⟩)], defaultExecutors⟩)
      = .error .invalidLine) := by
  refine ⟨⟨?_, ?_, ?_⟩, ?_⟩ <;> decide

/-- C1 (amended): the decode/encode round trip reproduces the model
exactly, for every model (in canonical sorted association-list form,
the unique representation of the Go maps) whose scalar keys are
well-formed (non-empty, trimming-invariant, no `=`, no newline, not
starting with `#`), whose executor keys are additionally ASCII (where
the model of `strings.ToLower` is exact), lowercase-fixed and include
the three built-in default keys, whose alias names are non-empty and
newline-free, and whose encoded lines stay within the conservative
byte budget of the default `bufio.Scanner` 64 KiB token limit.  Keys
and aliases produced by `loadConfig` always satisfy this; `-config
set` and `add` can inject keys, aliases or oversized values outside
this set, where the round trip can fail (see the counterexample). -/
theorem C1_roundtrip (m : configData)
    (hskeys : ∀ kv ∈ m.scalars, WellKey kv.1)
    (hssort : (mapKeys m.scalars).Pairwise (fun x y => strLt x y = true))
    (hekeys : ∀ kv ∈ m.executors, WellKey kv.1 ∧ toLowerGo kv.1 = kv.1)
    (haex : ∀ kv ∈ m.executors, asciiStr kv.1 = true)
    (hesort : (mapKeys m.executors).Pairwise (fun x y => strLt x y = true))
    (hjs : (mapLookup (str "js") m.executors).isSome = true)
    (hpy : (mapLookup (str "py") m.executors).isSome = true)
    (hsh : (mapLookup (str "sh") m.executors).isSome = true)
    (hckeys : ∀ kv ∈ m.commands, kv.1 ≠ [] ∧ nl ∉ kv.1)
    (hcsort : (mapKeys m.commands).Pairwise (fun x y => strLt x y = true))
    (hfits : ∀ l ∈ encodeLines m, scanBudgetLen l < maxScanTokenSize) :
    loadConfig (encodeConfig m) = .ok m :=
  loadConfig_encodeConfig m hskeys hssort hekeys hesort hjs hpy hsh hckeys hcsort hfits

/-- Witness for C1: the round trip at a concrete populated model. -/
theorem C1_roundtrip_witness :
    loadConfig (encodeConfig ⟨[(str "commands_folder", str "/h/c")],
      [(str "al", ⟨str "/x/a.sh", str "run a"⟩)], defaultExecutors⟩)
      = .ok ⟨[(str "commands_folder", str "/h/c")],
      [(str "al", ⟨str "/x/a.sh", str "run a"⟩)], defaultExecutors⟩ :=
  C1_roundtrip _ (by decide) (by decide) (by decide) (by decide) (by decide)
    (by decide) (by decide) (by decide) (by decide) (by decide) (by decide)

/-- Witness for C2: a literal value and a one-rune single-quoted value. -/
theorem C2_value_decoding_witness :
    parseTomlValue (str "plain") = .ok (str "plain") ∧
    parseTomlValue [squote, Char.ofNat 97, squote] = .ok [Char.ofNat 97] := by
  constructor
  · exact C2_value_decoding.2.1 (str "plain") (by decide) (by decide) (by decide)
  · exact C2_value_decoding.2.2.2.1 (Char.ofNat 97) (by decide) (by decide) (by decide)

/-! ### Executor defaults (C5) and duplicate handling (C10) -/

theorem processLine_preserves_no_exec (st st2 : LoadState) (l : Str)
    (hhdr : isExecHeader l = false)
    (h1 : st.inExecutors = false) (h2 : st.cfg.executors = [])
    (hp : processLine st l = .ok st2) :
    st2.inExecutors = false ∧ st2.cfg.executors = [] := by
  simp only [processLine] at hp
  split at hp
  · cases hp
    exact ⟨rfl, h2⟩
  · split at hp
    · cases hp
      exact ⟨h1, h2⟩
    · split at hp
      · split at hp
        · exfalso
          rename_i hheader hsec
          simp only [isExecHeader, Bool.and_eq_false_iff] at hhdr
          rcases hhdr with h | h
          · rcases h with h | h
            · rw [h] at hheader
              simp at hheader
            · rw [h] at hheader
              simp at hheader
          · rw [beq_eq_false_iff_ne] at h
            exact h hsec
        · split at hp
          · split at hp
            · cases hp
            · cases hp
              refine ⟨rfl, ?_⟩
              split
              · exact h2
              · exact h2
          · cases hp
      · split at hp
        · cases hp
        · split at hp
          · cases hp
          · split at hp
            · cases hp
            · split at hp
              · rename_i hex
                rw [h1] at hex
                cases hex
              · split at hp
                · split at hp
                  · cases hp
                    exact ⟨h1, h2⟩
                  · split at hp
                    · cases hp
                      exact ⟨h1, h2⟩
                    · cases hp
                · cases hp
                  exact ⟨h1, h2⟩

theorem loadLinesAux_no_exec (lines : List Str) :
    ∀ (st st2 : LoadState),
    (∀ l ∈ lines, isExecHeader l = false) →
    st.inExecutors = false → st.cfg.executors = [] →
    loadLinesAux st lines = .ok st2 →
    st2.inExecutors = false ∧ st2.cfg.executors = [] := by
  induction lines with
  | nil =>
    intro st st2 _ h1 h2 hrun
    rw [loadLinesAux] at hrun
    cases hrun
    exact ⟨h1, h2⟩
  | cons l ls ih =>
    intro st st2 hhdr h1 h2 hrun
    rw [loadLinesAux] at hrun
    cases hproc : processLine st l with
    | error e =>
      rw [hproc] at hrun
      cases hrun
    | ok stm =>
      rw [hproc] at hrun
      obtain ⟨h1m, h2m⟩ := processLine_preserves_no_exec st stm l
        (hhdr l (by simp)) h1 h2 hproc
      exact ih stm st2 (fun l2 hl2 => hhdr l2 (by simp [hl2])) h1m h2m hrun

theorem foldl_fill (ds : List (Str × Str)) :
    ∀ (acc : List (Str × Str)) (k : Str),
    mapLookup k (ds.foldl
      (fun acc kv => if (mapLookup kv.1 acc).isNone then mapInsert kv.1 kv.2 acc else acc) acc)
    = match mapLookup k acc with
      | some v => some v
      | none => mapLookup k ds := by
  induction ds with
  | nil =>
    intro acc k
    cases h : mapLookup k acc <;> simp [mapLookup, h]
  | cons d ds2 ih =>
    obtain ⟨dk, dv⟩ := d
    intro acc k
    rw [List.foldl_cons, ih]
    by_cases hk : dk = k
    · subst hk
      cases hacc : mapLookup dk acc with
      | some w =>
        rw [if_neg (by simp)]
        rw [hacc]
      | none =>
        rw [if_pos (by simp)]
        rw [show mapLookup dk (mapInsert dk dv acc) = some dv from mapLookup_insert_self _ _ _]
        show some dv = mapLookup dk ((dk, dv) :: ds2)
        rw [mapLookup, if_pos rfl]
    · have hstep : mapLookup k (if (mapLookup dk acc).isNone
          then mapInsert dk dv acc else acc) = mapLookup k acc := by
        split
        · exact mapLookup_insert_other _ _ _ _ (fun e => hk e.symm)
        · rfl
      rw [hstep]
      cases hacc : mapLookup k acc with
      | some w => rfl
      | none =>
        show mapLookup k ds2 = mapLookup k ((dk, dv) :: ds2)
        rw [mapLookup, if_neg hk]

/-- C5: a decoded file with no `[executors]` section yields exactly the
three built-in mappings; in general the loaded executors keep the
file's value for every key present in the scan and fill in only the
absent defaults. -/
theorem C5_executors_defaults :
    (∀ (lines : List Str) (m : configData),
      (∀ l ∈ lines, isExecHeader l = false) →
      loadFromLines lines = .ok m →
      m.executors = defaultExecutors) ∧
    (∀ (ex : List (Str × Str)) (k : Str),
      mapLookup k (mergeDefaultExecutors ex) =
        match mapLookup k ex with
        | some v => some v
        | none => mapLookup k defaultExecutors) ∧
    (∀ (lines : List Str) (m : configData) (st : LoadState),
      loadLinesAux initState lines = .ok st →
      loadFromLines lines = .ok m →
      ∀ k, mapLookup k m.executors =
        match mapLookup k st.cfg.executors with
        | some v => some v
        | none => mapLookup k defaultExecutors) := by
  have hmerge : ∀ (ex : List (Str × Str)) (k : Str),
      mapLookup k (mergeDefaultExecutors ex) =
        match mapLookup k ex with
        | some v => some v
        | none => mapLookup k defaultExecutors := by
    intro ex k
    rw [mergeDefaultExecutors]
    exact foldl_fill defaultExecutors ex k
  refine ⟨?_, hmerge, ?_⟩
  · intro lines m hhdr hload
    rw [loadFromLines] at hload
    cases hrun : loadLinesAux initState lines with
    | error e =>
      rw [hrun] at hload
      cases hload
    | ok st =>
      rw [hrun] at hload
      obtain ⟨_, hex⟩ := loadLinesAux_no_exec lines initState st hhdr rfl rfl hrun
      cases hload
      show mergeDefaultExecutors st.cfg.executors = defaultExecutors
      rw [hex]
      rfl
  · intro lines m st hrun hload k
    rw [loadFromLines, hrun] at hload
    cases hload
    show mapLookup k (mergeDefaultExecutors st.cfg.executors) = _
    exact hmerge st.cfg.executors k

/-- Witness for C5: a file with a single scalar line decodes with
exactly the default executors, and the merge keeps an override. -/
theorem C5_witness :
    (∃ m, loadFromLines [kvLine (str "k") (str "v")] = .ok m ∧
      m.executors = defaultExecutors) ∧
    mapLookup (str "sh") (mergeDefaultExecutors [(str "sh", str "bash")])
      = some (str "bash") := by
  constructor
  · refine ⟨⟨[(str "k", str "v")], [], defaultExecutors⟩, by decide, ?_⟩
    exact C5_executors_defaults.1 [kvLine (str "k") (str "v")] _ (by decide) (by decide)
  · rw [C5_executors_defaults.2.1 [(str "sh", str "bash")] (str "sh")]
    decide

/-- C10: during decode, a second `[commands.alias]` header for an alias
already present keeps the existing record unchanged (only the current
command cursor moves), a repeated key written with `mapInsert` makes the
last value win, and a concrete file duplicating a scalar key, an
executor key, a `path` and a `description` decodes with the last value
of each winning and the earlier command record retained and updated. -/
theorem C10_duplicates :
    (∀ (st : LoadState) (a : Str) (r : commandDefinition),
      a ≠ [] →
      mapLookup a st.cfg.commands = some r →
      processLine st (str "[commands." ++ a ++ [rbrC]) =
        .ok { st with currentCommand := a, inExecutors := false }) ∧
    (∀ (m2 : List (Str × Str)) (k v : Str),
      mapLookup k (mapInsert k v m2) = some v) ∧
    loadConfig (str "x = \"1\"\nx = \"2\"\n[executors]\nsh = \"a\"\nsh = \"b\"\n[commands.a]\npath = \"p1\"\n[commands.a]\ndescription = \"d1\"\npath = \"p2\"\n")
      = .ok ⟨[(str "x", str "2")], [(str "a", ⟨str "p2", str "d1"⟩)],
             mergeDefaultExecutors [(str "sh", str "b")]⟩ := by
  refine ⟨?_, ?_, by decide⟩
  · intro st a r ha hr
    rw [processLine_cmdHeader st a ha]
    rw [if_neg (by rw [hr]; simp)]
  · intro m2 k v
    exact mapLookup_insert_self k v m2

/-- Witness for C10: a repeated header for an existing alias leaves the
catalog untouched. -/
theorem C10_witness :
    processLine ⟨⟨[], [(str "a", ⟨str "p", str "d"⟩)], []⟩, [], true⟩
        (str "[commands.a]") =
      .ok ⟨⟨[], [(str "a", ⟨str "p", str "d"⟩)], []⟩, str "a", false⟩ := by
  have e : str "[commands.a]" = str "[commands." ++ str "a" ++ [rbrC] := by decide
  rw [e]
  exact C10_duplicates.1 ⟨⟨[], [(str "a", ⟨str "p", str "d"⟩)], []⟩, [], true⟩
    (str "a") ⟨str "p", str "d"⟩ (by decide) (by decide)

/-- C9: the decoder does reject an empty alias in a `[commands.]` header,
but `handleAddCommand` does not: with an empty command name and a valid
script it succeeds, inserts an entry under the empty alias, and the file
text it writes fails to decode with an invalid-section error. -/
theorem C9_empty_alias :
    (∀ st : LoadState, processLine st (str "[commands.]") = .error .invalidSection) ∧
    (∃ cfg2 text,
      handleAddCommand ⟨fun _ => none, none, str "/w"⟩ ⟨fun _ => .file, fun _ => true, true⟩
          (str "x.sh") [] (str "d")
          ⟨[(str "commands_folder", str "/cmds")], [], defaultExecutors⟩
        = .ok (cfg2, text) ∧
      mapLookup [] cfg2.commands = some ⟨str "/cmds/x.sh", str "d"⟩ ∧
      loadConfig text = .error .invalidSection) := by
  refine ⟨fun st => rfl,
    ⟨⟨[(str "commands_folder", str "/cmds")],
        [([], ⟨str "/cmds/x.sh", str "d"⟩)], defaultExecutors⟩,
      encodeConfig ⟨[(str "commands_folder", str "/cmds")],
        [([], ⟨str "/cmds/x.sh", str "d"⟩)], defaultExecutors⟩,
      by decide, by decide, by decide⟩⟩

/-- C3: with the commands folder configured, resolved and created and the
candidate script path determined, the duplicate-alias check runs only
after file validation: an existing regular file plus a present alias
yields the already-exists error, while a missing candidate file yields
the missing-file error even when the alias is also a duplicate. Every
error outcome of `handleAddCommand` carries no updated model or file
text, so the catalog entry and the on-disk file are unchanged. -/
theorem C3_duplicate_check_order
    (env : GoEnv) (fs : GoFS) (fileName a d : Str) (cfg : configData)
    (raw dir cand : Str)
    (hlook : mapLookup (str "commands_folder") cfg.scalars = some raw)
    (hraw : raw ≠ [])
    (hdir : resolveUserPath env raw = .ok dir)
    (hmk : fs.mkdirAllOk dir = true)
    (hcand : (if isSimpleCommandName fileName then Except.ok (filepathJoin dir fileName)
        else resolveUserPath env fileName) = .ok cand) :
    (fs.stat cand = .file → (mapLookup a cfg.commands).isSome = true →
      handleAddCommand env fs fileName a d cfg = .error .alreadyExists) ∧
    (fs.stat cand = .notExist →
      handleAddCommand env fs fileName a d cfg = .error .fileNotExist) := by
  have hbase : handleAddCommand env fs fileName a d cfg =
      (match fs.stat cand with
       | .notExist => .error .fileNotExist
       | .errOther => .error .statFailed
       | .dir => .error .isDirectory
       | .file =>
         if (mapLookup a cfg.commands).isSome then .error .alreadyExists
         else
           let cfg2 := { cfg with
             commands := mapInsert a ⟨collapseHomePath env cand, d⟩ cfg.commands }
           if fs.writeOk then .ok (cfg2, encodeConfig cfg2)
           else .error .writeFailed) := by
    simp only [handleAddCommand, hlook, if_neg hraw, hdir]
    rw [if_neg (show ¬ ¬ (fs.mkdirAllOk dir = true) from fun h => h hmk)]
    simp only [hcand]
  constructor
  · intro hstat hdup
    rw [hbase]
    simp only [hstat]
    rw [if_pos hdup]
  · intro hstat
    rw [hbase]
    simp only [hstat]

/-- Witness for C3: a duplicate alias with an existing file errors with
already-exists; the same add against a missing file errors with
file-not-exist despite the duplicate. -/
theorem C3_witness :
    handleAddCommand ⟨fun _ => none, none, str "/w"⟩ ⟨fun _ => .file, fun _ => true, true⟩
        (str "x.sh") (str "x") (str "d")
        ⟨[(str "commands_folder", str "/cmds")],
         [(str "x", ⟨str "/p", str "pd"⟩)], defaultExecutors⟩
      = .error .alreadyExists ∧
    handleAddCommand ⟨fun _ => none, none, str "/w"⟩ ⟨fun _ => .notExist, fun _ => true, true⟩
        (str "x.sh") (str "x") (str "d")
        ⟨[(str "commands_folder", str "/cmds")],
         [(str "x", ⟨str "/p", str "pd"⟩)], defaultExecutors⟩
      = .error .fileNotExist := by
  constructor
  · exact (C3_duplicate_check_order ⟨fun _ => none, none, str "/w"⟩
      ⟨fun _ => .file, fun _ => true, true⟩ (str "x.sh") (str "x") (str "d")
      ⟨[(str "commands_folder", str "/cmds")],
       [(str "x", ⟨str "/p", str "pd"⟩)], defaultExecutors⟩
      (str "/cmds") (str "/cmds") (str "/cmds/x.sh")
      (by decide) (by decide) (by decide) rfl (by decide)).1 rfl (by decide)
  · exact (C3_duplicate_check_order ⟨fun _ => none, none, str "/w"⟩
      ⟨fun _ => .notExist, fun _ => true, true⟩ (str "x.sh") (str "x") (str "d")
      ⟨[(str "commands_folder", str "/cmds")],
       [(str "x", ⟨str "/p", str "pd"⟩)], defaultExecutors⟩
      (str "/cmds") (str "/cmds") (str "/cmds/x.sh")
      (by decide) (by decide) (by decide) rfl (by decide)).2 rfl

theorem shellWordQ_cons_squote (X : Str) : shellWordQ (squote :: X) = shellWord X := by
  simp [shellWordQ, shellWord, shellWordAux]

theorem shellWord_cons_squote (X : Str) : shellWord (squote :: X) = shellWordQ X := by
  simp [shellWord, shellWordQ, shellWordAux]

theorem shellWord_bslash (d : Char) (X : Str) :
    shellWord (bslash :: d :: X) = (shellWord X).map (d :: ·) := by
  show shellWordAux SWMode.plain (bslash :: d :: X) = (shellWordAux SWMode.plain X).map (d :: ·)
  rw [shellWordAux, if_neg (show ¬ bslash = squote by decide), if_pos rfl]
  rfl

theorem shellWordQ_cons_ne (c : Char) (X : Str) (h : ¬ c = squote) :
    shellWordQ (c :: X) = (shellWordQ X).map (c :: ·) := by
  simp only [shellWordQ, shellWordAux]
  rw [if_neg h]

theorem shellWordQ_escaped (p : Str) : ∀ (fuel : Nat) (t : Str), p.length ≤ fuel →
    shellWordQ (replaceAllGo [squote] [squote, bslash, squote, squote] fuel p ++ squote :: t)
      = Option.map (fun w => p ++ w) (shellWord t) := by
  induction p with
  | nil =>
    intro fuel t _
    cases fuel <;>
      simp [replaceAllGo, shellWordQ_cons_squote, shellWord, shellWordQ, shellWordAux]
  | cons c rest ih =>
    intro fuel t hf
    cases fuel with
    | zero => simp at hf
    | succ f =>
      have hf2 : rest.length ≤ f := by
        simp only [List.length_cons] at hf
        omega
      by_cases hc : c = squote
      · subst hc
        have he : replaceAllGo [squote] [squote, bslash, squote, squote] (f + 1) (squote :: rest)
            = [squote, bslash, squote, squote] ++
              replaceAllGo [squote] [squote, bslash, squote, squote] f rest := by
          simp [replaceAllGo, List.isPrefixOf]
        rw [he, List.append_assoc]
        simp only [List.cons_append, List.nil_append]
        rw [shellWordQ_cons_squote, shellWord_bslash, shellWord_cons_squote, ih f t hf2]
        cases shellWord t <;> simp
      · have hpre : List.isPrefixOf [squote] (c :: rest) = false := by
          simp [List.isPrefixOf]
          exact fun h => hc h.symm
        have he : replaceAllGo [squote] [squote, bslash, squote, squote] (f + 1) (c :: rest)
            = c :: replaceAllGo [squote] [squote, bslash, squote, squote] f rest := by
          simp [replaceAllGo, hpre]
        rw [he, List.cons_append]
        rw [shellWordQ_cons_ne c _ hc, ih f t hf2]
        cases shellWord t <;> simp

/-- C4: a template lacking the placeholder is rejected with the
must-include-path error (in the model no command string exists, so
nothing is spawned); a template containing it gets every occurrence
substituted with the shell-quoted script path; the POSIX word parse of
the quoted path recovers exactly the original path (no word splitting,
no injection, even with embedded single quotes); and the Scenario E
dispatcher run with executor template `sh` fails with the
must-include-path error. -/
theorem C4_placeholder_quoting :
    (∀ template scriptPath ext, containsSub template placeholder = false →
      buildExecutorCommand template scriptPath ext = .error (.mustIncludePath ext)) ∧
    (∀ template scriptPath ext, containsSub template placeholder = true →
      buildExecutorCommand template scriptPath ext
        = .ok (replaceAll template placeholder (shellQuote scriptPath))) ∧
    (∀ p, shellWord (shellQuote p) = some p) ∧
    handleExecCommand ⟨fun _ => none, none, str "/w"⟩ ⟨fun _ => .file, fun _ => true, true⟩
        (str "noop")
        ⟨[], [(str "noop", ⟨str "/s/noop.sh", str "nd"⟩)], [(str "sh", str "sh")]⟩
      = .error (.mustIncludePath (str "sh")) := by
  refine ⟨?_, ?_, ?_, by decide⟩
  · intro template scriptPath ext h
    rw [buildExecutorCommand, if_pos (by rw [h]; simp)]
  · intro template scriptPath ext h
    rw [buildExecutorCommand, if_neg (show ¬ ¬ (containsSub template placeholder = true)
      from fun hn => hn h)]
  · intro p
    by_cases hp : p = []
    · subst hp
      decide
    · rw [shellQuote, if_neg hp]
      rw [List.cons_append, shellWord_cons_squote, replaceAll]
      rw [shellWordQ_escaped p p.length [] le_rfl]
      simp [shellWord, shellWordAux]

/-- Witness for C4: a concrete template with the placeholder substitutes
the quoted path, the bare template `sh` is rejected, and the quoted form
of a path containing a single quote and a space parses back to the
original path. -/
theorem C4_witness :
    buildExecutorCommand (str "run " ++ placeholder) (str "/a/b c.sh") (str "sh")
      = .ok (replaceAll (str "run " ++ placeholder) placeholder (shellQuote (str "/a/b c.sh"))) ∧
    buildExecutorCommand (str "sh") (str "/a/b.sh") (str "sh")
      = .error (.mustIncludePath (str "sh")) ∧
    shellWord (shellQuote ([squote] ++ str "x y")) = some ([squote] ++ str "x y") := by
  refine ⟨C4_placeholder_quoting.2.1 _ _ _ (by decide),
    C4_placeholder_quoting.1 _ _ _ (by decide),
    C4_placeholder_quoting.2.2.1 ([squote] ++ str "x y")⟩

theorem handleAdd_statPhase
    (env : GoEnv) (fs : GoFS) (fileName a d : Str) (cfg : configData)
    (raw dir cand : Str)
    (hlook : mapLookup (str "commands_folder") cfg.scalars = some raw)
    (hraw : raw ≠ [])
    (hdir : resolveUserPath env raw = .ok dir)
    (hmk : fs.mkdirAllOk dir = true)
    (hcand : (if isSimpleCommandName fileName then Except.ok (filepathJoin dir fileName)
        else resolveUserPath env fileName) = .ok cand) :
    handleAddCommand env fs fileName a d cfg =
      (match fs.stat cand with
       | .notExist => .error .fileNotExist
       | .errOther => .error .statFailed
       | .dir => .error .isDirectory
       | .file =>
         if (mapLookup a cfg.commands).isSome then .error .alreadyExists
         else
           let cfg2 := { cfg with
             commands := mapInsert a ⟨collapseHomePath env cand, d⟩ cfg.commands }
           if fs.writeOk then .ok (cfg2, encodeConfig cfg2)
           else .error .writeFailed) := by
  simp only [handleAddCommand, hlook, if_neg hraw, hdir]
  rw [if_neg (show ¬ ¬ (fs.mkdirAllOk dir = true) from fun h => h hmk)]
  simp only [hcand]

/-- C6: `isSimpleCommandName` holds exactly of a non-empty name that is
not absolute, does not start with `~` or `$` and contains no path
separator; for such a bare name a successful add stores the (home
collapsed) join of the name under the resolved commands folder, while
any other input is stored as its independent PathResolver resolution;
and the Scenario B relative input `./scripts/cleanup.rb` is stored as
its absolute resolution against the working directory, which differs
from the join under `commands_folder`. -/
theorem C6_candidate_selection :
    (∀ v : Str, isSimpleCommandName v = true ↔
      (v ≠ [] ∧ isAbsGo v = false ∧ hasPre v [tildeC] = false ∧
       hasPre v [dollarC] = false ∧ v.contains slashC = false)) ∧
    (∀ (env : GoEnv) (fs : GoFS) (fileName a d : Str) (cfg : configData) (raw dir : Str),
      mapLookup (str "commands_folder") cfg.scalars = some raw → raw ≠ [] →
      resolveUserPath env raw = .ok dir → fs.mkdirAllOk dir = true →
      isSimpleCommandName fileName = true →
      fs.stat (filepathJoin dir fileName) = .file →
      (mapLookup a cfg.commands).isSome = false →
      fs.writeOk = true →
      handleAddCommand env fs fileName a d cfg =
        .ok ({ cfg with
                commands := mapInsert a
                  ⟨collapseHomePath env (filepathJoin dir fileName), d⟩ cfg.commands },
          encodeConfig { cfg with
                commands := mapInsert a
                  ⟨collapseHomePath env (filepathJoin dir fileName), d⟩ cfg.commands })) ∧
    (∀ (env : GoEnv) (fs : GoFS) (fileName a d : Str) (cfg : configData) (raw dir rp : Str),
      mapLookup (str "commands_folder") cfg.scalars = some raw → raw ≠ [] →
      resolveUserPath env raw = .ok dir → fs.mkdirAllOk dir = true →
      isSimpleCommandName fileName = false →
      resolveUserPath env fileName = .ok rp →
      fs.stat rp = .file →
      (mapLookup a cfg.commands).isSome = false →
      fs.writeOk = true →
      handleAddCommand env fs fileName a d cfg =
        .ok ({ cfg with
                commands := mapInsert a ⟨collapseHomePath env rp, d⟩ cfg.commands },
          encodeConfig { cfg with
                commands := mapInsert a ⟨collapseHomePath env rp, d⟩ cfg.commands })) ∧
    (handleAddCommand ⟨fun _ => none, none, str "/w"⟩ ⟨fun _ => .file, fun _ => true, true⟩
        (str "./scripts/cleanup.rb") (str "cleanup") (str "Remove temp")
        ⟨[(str "commands_folder", str "/cmds")], [], defaultExecutors⟩
      = .ok (⟨[(str "commands_folder", str "/cmds")],
          [(str "cleanup", ⟨str "/w/scripts/cleanup.rb", str "Remove temp"⟩)],
          defaultExecutors⟩,
        encodeConfig ⟨[(str "commands_folder", str "/cmds")],
          [(str "cleanup", ⟨str "/w/scripts/cleanup.rb", str "Remove temp"⟩)],
          defaultExecutors⟩) ∧
      str "/w/scripts/cleanup.rb" ≠ filepathJoin (str "/cmds") (str "./scripts/cleanup.rb")) := by
  refine ⟨?_, ?_, ?_, by decide, by decide⟩
  · intro v
    by_cases h1 : v = [] <;> by_cases h2 : isAbsGo v <;>
      by_cases h3 : hasPre v [tildeC] <;> by_cases h4 : hasPre v [dollarC] <;>
      by_cases h5 : v.contains slashC <;>
      simp_all [isSimpleCommandName]
  · intro env fs fileName a d cfg raw dir hlook hraw hdir hmk hsimple hstat hdup hw
    rw [handleAdd_statPhase env fs fileName a d cfg raw dir (filepathJoin dir fileName)
      hlook hraw hdir hmk (by rw [if_pos hsimple])]
    simp only [hstat]
    rw [if_neg (by rw [hdup]; simp)]
    show (if fs.writeOk = true then
        Except.ok ({ cfg with
                commands := mapInsert a
                  ⟨collapseHomePath env (filepathJoin dir fileName), d⟩ cfg.commands },
          encodeConfig { cfg with
                commands := mapInsert a
                  ⟨collapseHomePath env (filepathJoin dir fileName), d⟩ cfg.commands })
      else Except.error AddErr.writeFailed) = _
    rw [if_pos hw]
  · intro env fs fileName a d cfg raw dir rp hlook hraw hdir hmk hsimple hres hstat hdup hw
    rw [handleAdd_statPhase env fs fileName a d cfg raw dir rp hlook hraw hdir hmk
      (by rw [if_neg (show ¬ isSimpleCommandName fileName = true by rw [hsimple]; simp)]
          exact hres)]
    simp only [hstat]
    rw [if_neg (by rw [hdup]; simp)]
    show (if fs.writeOk = true then
        Except.ok ({ cfg with
                commands := mapInsert a ⟨collapseHomePath env rp, d⟩ cfg.commands },
          encodeConfig { cfg with
                commands := mapInsert a ⟨collapseHomePath env rp, d⟩ cfg.commands })
      else Except.error AddErr.writeFailed) = _
    rw [if_pos hw]

/-- Witness for C6: a bare name `x.sh` is stored as its join under the
commands folder. -/
theorem C6_witness :
    handleAddCommand ⟨fun _ => none, none, str "/w"⟩ ⟨fun _ => .file, fun _ => true, true⟩
        (str "x.sh") (str "x") (str "d")
        ⟨[(str "commands_folder", str "/cmds")], [], defaultExecutors⟩
      = .ok ({ scalars := [(str "commands_folder", str "/cmds")],
               commands := mapInsert (str "x")
                 ⟨collapseHomePath ⟨fun _ => none, none, str "/w"⟩
                   (filepathJoin (str "/cmds") (str "x.sh")), str "d"⟩ [],
               executors := defaultExecutors },
        encodeConfig { scalars := [(str "commands_folder", str "/cmds")],
                       commands := mapInsert (str "x")
                         ⟨collapseHomePath ⟨fun _ => none, none, str "/w"⟩
                           (filepathJoin (str "/cmds") (str "x.sh")), str "d"⟩ [],
                       executors := defaultExecutors }) := by
  exact C6_candidate_selection.2.1 ⟨fun _ => none, none, str "/w"⟩
    ⟨fun _ => .file, fun _ => true, true⟩ (str "x.sh") (str "x") (str "d")
    ⟨[(str "commands_folder", str "/cmds")], [], defaultExecutors⟩
    (str "/cmds") (str "/cmds")
    (by decide) (by decide) (by decide) rfl (by decide) rfl (by decide) rfl

theorem expandHomeShortcut_error_iff (env : GoEnv) (p : Str) (e : PathErr) :
    expandHomeShortcut env p = .error e ↔
      (e = .homeUnset ∧ hasPre p [tildeC] = true ∧ currentHomeDir env = []) := by
  rw [expandHomeShortcut]
  by_cases h1 : p = []
  · subst h1
    simp [hasPre, List.isPrefixOf]
  · rw [if_neg h1]
    by_cases h2 : hasPre p [tildeC] = true
    · rw [if_neg (show ¬ ¬ (hasPre p [tildeC] = true) from fun hn => hn h2)]
      by_cases h3 : currentHomeDir env = []
      · rw [if_pos h3]
        simp [h2, h3, eq_comm]
      · rw [if_neg h3]
        by_cases h4 : p = [tildeC]
        · rw [if_pos h4]
          simp [h3]
        · rw [if_neg h4]
          by_cases h5 : hasPre p (str "~/") = true
          · rw [if_pos h5]
            simp [h3]
          · rw [if_neg h5]
            simp [h3]
    · rw [if_pos h2]
      simp [h2]

/-- C7, counterexample to the claim as stated: with no determinable home
directory, the input `~user/x` — whose `~` is followed by neither nothing
nor `/`, so the claim says it is left untouched and does not fail — is
rejected with the home-unset error, because the home lookup precedes the
form check. -/
theorem C7_counterexample :
    resolveUserPath ⟨fun _ => none, none, str "/w"⟩ (str "~user/x") = .error .homeUnset ∧
    hasPre (str "~user/x") (str "~/") = false ∧
    str "~user/x" ≠ [tildeC] := by decide

/-- C7 (amended): resolve fails with the empty-path error exactly on
empty input; it fails with the home-unset error exactly when the
env-expanded input starts with `~` (in any form, `~user/x` included) and
the home directory cannot be determined; and when the home directory is
available, a `~` prefix followed by anything other than nothing or `/`
is left untouched (the result is just the expanded input made
absolute). -/
theorem C7_resolve_errors :
    (∀ (env : GoEnv) (input : Str),
      resolveUserPath env input = .error .emptyPath ↔ input = []) ∧
    (∀ (env : GoEnv) (input : Str), input ≠ [] →
      (resolveUserPath env input = .error .homeUnset ↔
        (hasPre (osExpandEnv env input) [tildeC] = true ∧ currentHomeDir env = []))) ∧
    (∀ (env : GoEnv) (input : Str), input ≠ [] →
      hasPre (osExpandEnv env input) [tildeC] = true →
      currentHomeDir env ≠ [] →
      osExpandEnv env input ≠ [tildeC] →
      hasPre (osExpandEnv env input) (str "~/") = false →
      resolveUserPath env input = .ok (filepathAbs env.cwd (osExpandEnv env input))) := by
  refine ⟨?_, ?_, ?_⟩
  · intro env input
    constructor
    · intro h
      by_contra hne
      rw [resolveUserPath, if_neg hne] at h
      cases hh : expandHomeShortcut env (osExpandEnv env input) with
      | error e =>
        rw [hh] at h
        have he := ((expandHomeShortcut_error_iff env _ e).mp hh).1
        subst he
        cases h
      | ok ex =>
        rw [hh] at h
        cases h
    · intro h
      subst h
      rfl
  · intro env input hne
    rw [resolveUserPath, if_neg hne]
    cases hh : expandHomeShortcut env (osExpandEnv env input) with
    | error e =>
      obtain ⟨he, hp, hh0⟩ := (expandHomeShortcut_error_iff env _ e).mp hh
      subst he
      simp [hp, hh0]
    | ok ex =>
      constructor
      · intro h
        cases h
      · rintro ⟨hp, h0⟩
        have h2 := (expandHomeShortcut_error_iff env (osExpandEnv env input)
          .homeUnset).mpr ⟨rfl, hp, h0⟩
        rw [h2] at hh
        cases hh
  · intro env input hne hpre hhome hnot1 hnot2
    rw [resolveUserPath, if_neg hne]
    have hq : osExpandEnv env input ≠ [] := by
      intro h
      rw [h] at hpre
      exact absurd hpre (by decide)
    have hh : expandHomeShortcut env (osExpandEnv env input)
        = .ok (osExpandEnv env input) := by
      simp only [expandHomeShortcut]
      rw [if_neg hq]
      rw [if_neg (show ¬ ¬ (hasPre (osExpandEnv env input) [tildeC] = true)
        from fun hn => hn hpre)]
      rw [if_neg hhome, if_neg hnot1]
      rw [if_neg (show ¬ (hasPre (osExpandEnv env input) (str "~/") = true)
        from fun h => by rw [hnot2] at h; cases h)]
    rw [hh]

/-- Witness for C7: the empty input yields the empty-path error, and
with a home directory available the `~user/x` form passes through
unexpanded and is only made absolute. -/
theorem C7_witness :
    resolveUserPath ⟨fun _ => none, none, str "/w"⟩ [] = .error .emptyPath ∧
    resolveUserPath ⟨fun n => if n = str "HOME" then some (str "/home/u") else none,
        none, str "/w"⟩ (str "~user/x")
      = .ok (filepathAbs (str "/w") (str "~user/x")) := by
  constructor
  · exact (C7_resolve_errors.1 ⟨fun _ => none, none, str "/w"⟩ []).mpr rfl
  · exact C7_resolve_errors.2.2
      ⟨fun n => if n = str "HOME" then some (str "/home/u") else none, none, str "/w"⟩
      (str "~user/x") (by decide) (by decide) (by decide) (by decide) (by decide)

/-- C8, counterexample to the claim as stated: a relative override path
is not honored as-is but joined under the application config directory,
and an absolute path without extension gets `.toml` appended. -/
theorem C8_counterexample :
    resolveConfigPath (str "/cfg/mine") (str "sub/x.toml") = str "/cfg/mine/sub/x.toml" ∧
    str "/cfg/mine/sub/x.toml" ≠ str "sub/x.toml" ∧
    resolveConfigPath (str "/cfg/mine") (str "/etc/mine") = str "/etc/mine.toml" ∧
    str "/etc/mine.toml" ≠ str "/etc/mine" := by decide

/-- C8 (amended): an empty override defaults to `config.toml` under the
config directory; an absolute override is kept as-is when it has an
extension and gets `.toml` appended when it has none; every non-absolute
override (bare or with separators) is joined under the config directory,
with `.toml` appended first when it lacks an extension. -/
theorem C8_config_path :
    (∀ dir : Str, resolveConfigPath dir [] = filepathJoin dir (str "config.toml")) ∧
    (∀ dir name : Str, name ≠ [] → isAbsGo name = true → filepathExt name ≠ [] →
      resolveConfigPath dir name = name) ∧
    (∀ dir name : Str, name ≠ [] → isAbsGo name = true → filepathExt name = [] →
      resolveConfigPath dir name = name ++ str ".toml") ∧
    (∀ dir name : Str, name ≠ [] → isAbsGo name = false → filepathExt name ≠ [] →
      resolveConfigPath dir name = filepathJoin dir name) ∧
    (∀ dir name : Str, name ≠ [] → isAbsGo name = false → filepathExt name = [] →
      resolveConfigPath dir name = filepathJoin dir (name ++ str ".toml")) := by
  refine ⟨fun dir => rfl, ?_, ?_, ?_, ?_⟩
  · intro dir name h1 h2 h3
    simp only [resolveConfigPath, if_neg h1]
    rw [if_pos h2, if_neg h3]
  · intro dir name h1 h2 h3
    simp only [resolveConfigPath, if_neg h1]
    rw [if_pos h2, if_pos h3]
  · intro dir name h1 h2 h3
    simp only [resolveConfigPath, if_neg h1]
    rw [if_neg (show ¬ (isAbsGo name = true) from fun h => by rw [h2] at h; cases h)]
    by_cases hc : (name.contains slashC || name.contains bslash) = true
    · rw [if_pos hc, if_neg h3]
    · rw [if_neg hc, if_neg h3]
  · intro dir name h1 h2 h3
    simp only [resolveConfigPath, if_neg h1]
    rw [if_neg (show ¬ (isAbsGo name = true) from fun h => by rw [h2] at h; cases h)]
    by_cases hc : (name.contains slashC || name.contains bslash) = true
    · rw [if_pos hc, if_pos h3]
    · rw [if_neg hc, if_pos h3]

/-- Witness for C8: a bare name gets `.toml` and lands under the config
directory; an absolute path with extension is kept as-is. -/
theorem C8_witness :
    resolveConfigPath (str "/cfg") (str "mine")
      = filepathJoin (str "/cfg") (str "mine" ++ str ".toml") ∧
    resolveConfigPath (str "/cfg") (str "/etc/m.toml") = str "/etc/m.toml" := by
  refine ⟨C8_config_path.2.2.2.2 (str "/cfg") (str "mine")
      (by decide) (by decide) (by decide),
    C8_config_path.2.1 (str "/cfg") (str "/etc/m.toml")
      (by decide) (by decide) (by decide)⟩

end Mine

